import Mathlib

/-!
Verification of the `event_emitter` sharded publish/subscribe registry.

The Go source is embedded shallowly:
* Go maps become association lists over `String` keys (`AList`), with
  insert-or-overwrite (`alSet`), delete (`alDel`) and lookup (`alGet`)
  mirroring Go map assignment, `delete` and indexing.  Go maps have unique
  keys; on key-unique lists these operations agree with map semantics, and
  every list the embedding builds is key-unique.
* The per-subscriber `Metadata` store (`smap`) is an `AList` of `MValue`
  (Go `any` values restricted to the shapes the program stores and reads).
* Mutation becomes explicit state passing on `EventEmitter`; the seeded
  `maphash` is an arbitrary function parameter `hash : String → Nat`,
  masked with `bucketNum - 1` exactly as `getBucket` does.
* `Publish`/`PublishE` return the trace of callback invocations instead of
  performing effects; callbacks are genuine functions
  `Suber → Msg → Option Err` (Go `func(T, any) error`).
* The unchecked `value.(string)` type assertions in `GetTopicsBySubscriber`
  and `UnSubscribeAll` become `Option`-valued results, `none` meaning the
  Go code panics.
* `toBinaryNumber` operates on `int64`; it is embedded with explicit
  two's-complement wrap-around (`wrap`) and fuel (`tbnFuel`), `none`
  meaning the loop has not finished within the given fuel.
-/

set_option maxHeartbeats 1000000

namespace EventEmitterSpec

/-! ## Association lists: the embedding of Go `map[string]V` -/

abbrev AList (α : Type) := List (String × α)

variable {α : Type}

/-- Go `_, ok := m[k]`: key membership. -/
def alHas (m : AList α) (k : String) : Bool :=
  match m with
  | [] => false
  | p :: t => p.1 = k || alHas t k

/-- Go `v, ok := m[k]`: lookup. -/
def alGet (m : AList α) (k : String) : Option α :=
  match m with
  | [] => none
  | p :: t => if p.1 = k then some p.2 else alGet t k

/-- Go `m[k] = v`: insert or overwrite. -/
def alSet (m : AList α) (k : String) (v : α) : AList α :=
  match m with
  | [] => [(k, v)]
  | p :: t => if p.1 = k then (k, v) :: t else p :: alSet t k v

/-- Go `delete(m, k)`. -/
def alDel (m : AList α) (k : String) : AList α :=
  match m with
  | [] => []
  | p :: t => if p.1 = k then alDel t k else p :: alDel t k

/-- Go maps have unique keys; every reachable association list satisfies this. -/
@[reducible] def keysNodup (m : AList α) : Prop :=
  (m.map Prod.fst).Nodup

theorem mem_pair_of {m : AList α} {k : String} {p : String × α}
    (hp : p ∈ m) (hk : p.1 = k) : (k, p.2) ∈ m := by
  obtain ⟨a, b⟩ := p
  cases hk
  exact hp

theorem alHas_iff_mem {m : AList α} {k : String} :
    alHas m k = true ↔ ∃ v, (k, v) ∈ m := by
  induction m with
  | nil => simp [alHas]
  | cons p t ih =>
    by_cases hp : p.1 = k
    · subst hp
      exact ⟨fun _ => ⟨p.2, by simp⟩, fun _ => by simp [alHas]⟩
    · simp only [alHas, hp, decide_eq_true_eq, Bool.or_eq_true, false_or, ih,
        List.mem_cons]
      constructor
      · rintro ⟨v, hv⟩
        exact ⟨v, Or.inr hv⟩
      · rintro ⟨v, hv | hv⟩
        · exact absurd (congrArg Prod.fst hv.symm) hp
        · exact ⟨v, hv⟩

theorem alHas_false_iff {m : AList α} {k : String} :
    alHas m k = false ↔ ∀ v, (k, v) ∉ m := by
  constructor
  · intro h v hv
    have ht : alHas m k = true := alHas_iff_mem.2 ⟨v, hv⟩
    rw [h] at ht
    cases ht
  · intro h
    cases hh : alHas m k with
    | false => rfl
    | true =>
      obtain ⟨v, hv⟩ := alHas_iff_mem.1 hh
      exact absurd hv (h v)

theorem mem_of_alGet {m : AList α} {k : String} {v : α}
    (h : alGet m k = some v) : (k, v) ∈ m := by
  induction m with
  | nil => cases h
  | cons p t ih =>
    obtain ⟨pk, pv⟩ := p
    by_cases hp : pk = k
    · subst hp
      rw [alGet, if_pos rfl] at h
      cases h
      exact List.mem_cons_self _ _
    · rw [alGet, if_neg hp] at h
      exact List.mem_cons_of_mem _ (ih h)

theorem alGet_isSome_of_alHas {m : AList α} {k : String}
    (h : alHas m k = true) : ∃ v, alGet m k = some v := by
  induction m with
  | nil => cases h
  | cons p t ih =>
    by_cases hp : p.1 = k
    · exact ⟨p.2, by rw [alGet, if_pos hp]⟩
    · rw [alHas] at h
      simp only [hp, decide_False, Bool.false_or] at h
      obtain ⟨v, hv⟩ := ih h
      exact ⟨v, by rw [alGet, if_neg hp]; exact hv⟩

theorem alHas_of_alGet {m : AList α} {k : String} {v : α}
    (h : alGet m k = some v) : alHas m k = true :=
  alHas_iff_mem.2 ⟨v, mem_of_alGet h⟩

theorem alGet_eq_none_of_not_has {m : AList α} {k : String}
    (h : alHas m k = false) : alGet m k = none := by
  cases hg : alGet m k with
  | none => rfl
  | some v => rw [alHas_of_alGet hg] at h; cases h

theorem alGet_of_mem_nodup {m : AList α} {k : String} {v : α}
    (hnd : keysNodup m) (hm : (k, v) ∈ m) : alGet m k = some v := by
  induction m with
  | nil => cases hm
  | cons p t ih =>
    simp only [keysNodup, List.map_cons, List.nodup_cons] at hnd
    rcases List.mem_cons.1 hm with h | h
    · rw [← h, alGet, if_pos rfl]
    · have hp : p.1 ≠ k := by
        intro he
        exact hnd.1 (by simpa [he] using List.mem_map_of_mem Prod.fst h)
      rw [alGet, if_neg hp]
      exact ih hnd.2 h

theorem alGet_set_self (m : AList α) (k : String) (v : α) :
    alGet (alSet m k v) k = some v := by
  induction m with
  | nil => simp [alSet, alGet]
  | cons p t ih =>
    by_cases hp : p.1 = k
    · rw [alSet, if_pos hp, alGet, if_pos rfl]
    · rw [alSet, if_neg hp, alGet, if_neg hp]
      exact ih

theorem alGet_set_ne (m : AList α) {k k' : String} (v : α) (h : k' ≠ k) :
    alGet (alSet m k v) k' = alGet m k' := by
  have hk : ¬(k = k') := fun he => h he.symm
  induction m with
  | nil => simp [alSet, alGet, hk]
  | cons p t ih =>
    by_cases hp : p.1 = k
    · have hp' : ¬(p.1 = k') := by rw [hp]; exact hk
      rw [alSet, if_pos hp, alGet, if_neg hk, alGet, if_neg hp']
    · rw [alSet, if_neg hp]
      by_cases hp' : p.1 = k'
      · rw [alGet, if_pos hp', alGet, if_pos hp']
      · rw [alGet, if_neg hp', alGet, if_neg hp']
        exact ih

theorem mem_alSet {m : AList α} {k k' : String} {v v' : α}
    (h : (k', v') ∈ alSet m k v) : (k' = k ∧ v' = v) ∨ (k', v') ∈ m := by
  induction m with
  | nil =>
    rw [alSet] at h
    rcases List.mem_singleton.1 h with he
    exact Or.inl ⟨congrArg Prod.fst he, congrArg Prod.snd he⟩
  | cons p t ih =>
    by_cases hp : p.1 = k
    · rw [alSet, if_pos hp] at h
      rcases List.mem_cons.1 h with he | ht
      · exact Or.inl ⟨congrArg Prod.fst he, congrArg Prod.snd he⟩
      · exact Or.inr (List.mem_cons_of_mem _ ht)
    · rw [alSet, if_neg hp] at h
      rcases List.mem_cons.1 h with he | ht
      · exact Or.inr (he ▸ List.mem_cons_self p t)
      · rcases ih ht with h1 | h2
        · exact Or.inl h1
        · exact Or.inr (List.mem_cons_of_mem _ h2)

theorem mem_alDel {m : AList α} {k k' : String} {v' : α}
    (h : (k', v') ∈ alDel m k) : (k', v') ∈ m ∧ k' ≠ k := by
  induction m with
  | nil => cases h
  | cons p t ih =>
    by_cases hp : p.1 = k
    · rw [alDel, if_pos hp] at h
      obtain ⟨h1, h2⟩ := ih h
      exact ⟨List.mem_cons_of_mem _ h1, h2⟩
    · rw [alDel, if_neg hp] at h
      rcases List.mem_cons.1 h with he | ht
      · refine ⟨he ▸ List.mem_cons_self p t, ?_⟩
        intro hk
        exact hp (by rw [← hk, ← he])
      · obtain ⟨h1, h2⟩ := ih ht
        exact ⟨List.mem_cons_of_mem _ h1, h2⟩

theorem mem_alDel_of {m : AList α} {k k' : String} {v' : α}
    (hm : (k', v') ∈ m) (h : k' ≠ k) : (k', v') ∈ alDel m k := by
  induction m with
  | nil => cases hm
  | cons p t ih =>
    by_cases hp : p.1 = k
    · rw [alDel, if_pos hp]
      rcases List.mem_cons.1 hm with he | ht
      · exact absurd ((congrArg Prod.fst he).trans hp) h
      · exact ih ht
    · rw [alDel, if_neg hp]
      rcases List.mem_cons.1 hm with he | ht
      · exact he ▸ List.mem_cons_self p _
      · exact List.mem_cons_of_mem _ (ih ht)

theorem alHas_set (m : AList α) (k k' : String) (v : α) :
    alHas (alSet m k v) k' = (k' = k || alHas m k') := by
  by_cases he : k' = k
  · subst he
    simp [alHas_of_alGet (alGet_set_self m k' v)]
  · rw [decide_eq_false he, Bool.false_or]
    cases hh : alHas m k' with
    | true =>
      obtain ⟨w, hw⟩ := alGet_isSome_of_alHas hh
      have hg : alGet (alSet m k v) k' = some w := by
        rw [alGet_set_ne m v he]; exact hw
      exact alHas_of_alGet hg
    | false =>
      have hn : alGet (alSet m k v) k' = none := by
        rw [alGet_set_ne m v he]; exact alGet_eq_none_of_not_has hh
      cases h2 : alHas (alSet m k v) k' with
      | false => rfl
      | true =>
        obtain ⟨w, hw⟩ := alGet_isSome_of_alHas h2
        rw [hn] at hw
        cases hw

theorem alHas_del (m : AList α) (k k' : String) :
    alHas (alDel m k) k' = (k' ≠ k && alHas m k') := by
  by_cases he : k' = k
  · subst he
    have hfa : alHas (alDel m k') k' = false := by
      rw [alHas_false_iff]
      intro v hv
      exact (mem_alDel hv).2 rfl
    simp [hfa]
  · have hd : (decide (k' ≠ k)) = true := by simp [he]
    rw [hd, Bool.true_and]
    cases hh : alHas m k' with
    | true =>
      obtain ⟨v, hv⟩ := alHas_iff_mem.1 hh
      exact alHas_iff_mem.2 ⟨v, mem_alDel_of hv he⟩
    | false =>
      rw [alHas_false_iff] at hh ⊢
      intro v hv
      exact hh v (mem_alDel hv).1

theorem alGet_del_ne (m : AList α) {k k' : String} (h : k' ≠ k) :
    alGet (alDel m k) k' = alGet m k' := by
  induction m with
  | nil => rfl
  | cons p t ih =>
    by_cases hp : p.1 = k
    · have hp' : p.1 ≠ k' := by rw [hp]; exact fun h2 => h h2.symm
      rw [alDel, if_pos hp, alGet, if_neg hp', ih]
    · by_cases hp' : p.1 = k'
      · rw [alDel, if_neg hp, alGet, if_pos hp', alGet, if_pos hp']
      · rw [alDel, if_neg hp, alGet, if_neg hp', alGet, if_neg hp', ih]

theorem alDel_of_not_has {m : AList α} {k : String} (h : alHas m k = false) :
    alDel m k = m := by
  induction m with
  | nil => rfl
  | cons p t ih =>
    rw [alHas] at h
    simp only [Bool.or_eq_false_iff] at h
    have hp : p.1 ≠ k := by
      intro he
      simp [he] at h
    rw [alDel, if_neg hp, ih h.2]

theorem alSet_self {m : AList α} {k : String} {v : α}
    (hnd : keysNodup m) (hg : alGet m k = some v) : alSet m k v = m := by
  induction m with
  | nil => cases hg
  | cons p t ih =>
    simp only [keysNodup, List.map_cons, List.nodup_cons] at hnd
    obtain ⟨pk, pv⟩ := p
    by_cases hp : pk = k
    · subst hp
      rw [alGet, if_pos rfl] at hg
      cases hg
      rw [alSet, if_pos rfl]
    · rw [alGet, if_neg hp] at hg
      rw [alSet, if_neg hp, ih hnd.2 hg]

theorem keys_alSet_of_has {m : AList α} {k : String} (v : α)
    (h : alHas m k = true) : (alSet m k v).map Prod.fst = m.map Prod.fst := by
  induction m with
  | nil => cases h
  | cons p t ih =>
    by_cases hp : p.1 = k
    · rw [alSet, if_pos hp, List.map_cons, List.map_cons, hp]
    · rw [alHas] at h
      simp only [hp, decide_False, Bool.false_or] at h
      rw [alSet, if_neg hp, List.map_cons, List.map_cons, ih h]

theorem keys_alSet_of_not_has {m : AList α} {k : String} (v : α)
    (h : alHas m k = false) : (alSet m k v).map Prod.fst = m.map Prod.fst ++ [k] := by
  induction m with
  | nil => rfl
  | cons p t ih =>
    rw [alHas] at h
    simp only [Bool.or_eq_false_iff] at h
    have hp : p.1 ≠ k := by
      intro he
      simp [he] at h
    rw [alSet, if_neg hp, List.map_cons, List.map_cons, ih h.2, List.cons_append]

theorem keysNodup_set {m : AList α} (k : String) (v : α)
    (hnd : keysNodup m) : keysNodup (alSet m k v) := by
  unfold keysNodup at hnd ⊢
  cases hh : alHas m k with
  | true => rwa [keys_alSet_of_has v hh]
  | false =>
    rw [keys_alSet_of_not_has v hh, List.nodup_append]
    refine ⟨hnd, List.nodup_singleton k, ?_⟩
    intro x hx
    simp only [List.mem_singleton]
    intro he
    subst he
    obtain ⟨p, hp, hk⟩ := List.mem_map.1 hx
    rw [alHas_false_iff] at hh
    exact hh p.2 (mem_pair_of hp hk)

theorem alDel_sublist (m : AList α) (k : String) :
    List.Sublist (alDel m k) m := by
  induction m with
  | nil => exact List.Sublist.refl []
  | cons p t ih =>
    by_cases hp : p.1 = k
    · rw [alDel, if_pos hp]
      exact ih.cons p
    · rw [alDel, if_neg hp]
      exact ih.cons₂ p

theorem keysNodup_del {m : AList α} (k : String)
    (hnd : keysNodup m) : keysNodup (alDel m k) :=
  hnd.sublist ((alDel_sublist m k).map Prod.fst)

theorem length_alSet_of_has {m : AList α} {k : String} (v : α)
    (h : alHas m k = true) : (alSet m k v).length = m.length := by
  have := keys_alSet_of_has v h
  have h1 := congrArg List.length this
  simpa using h1

theorem length_alDel_of_has {m : AList α} {k : String}
    (hnd : keysNodup m) (h : alHas m k = true) :
    (alDel m k).length + 1 = m.length := by
  induction m with
  | nil => cases h
  | cons p t ih =>
    simp only [keysNodup, List.map_cons, List.nodup_cons] at hnd
    by_cases hp : p.1 = k
    · have hht : alHas t k = false := by
        rw [alHas_false_iff]
        intro v hv
        exact hnd.1 (by simpa [hp] using List.mem_map_of_mem Prod.fst hv)
      rw [alDel, if_pos hp, alDel_of_not_has hht, List.length_cons]
    · rw [alHas] at h
      simp only [hp, decide_False, Bool.false_or] at h
      rw [alDel, if_neg hp, List.length_cons, List.length_cons,
        ih hnd.2 h]

theorem countP_key_eq_one {m : AList α} {k : String}
    (hnd : keysNodup m) (h : alHas m k = true) :
    m.countP (fun p => p.1 = k) = 1 := by
  induction m with
  | nil => cases h
  | cons p t ih =>
    simp only [keysNodup, List.map_cons, List.nodup_cons] at hnd
    by_cases hp : p.1 = k
    · have hht : alHas t k = false := by
        rw [alHas_false_iff]
        intro v hv
        exact hnd.1 (by simpa [hp] using List.mem_map_of_mem Prod.fst hv)
      have hz : t.countP (fun p => p.1 = k) = 0 := by
        rw [List.countP_eq_zero]
        intro q hq
        simp only [decide_eq_true_eq]
        intro he
        rw [alHas_false_iff] at hht
        exact hht q.2 (mem_pair_of hq he)
      rw [List.countP_cons_of_pos _ _ (by simpa using hp), hz]
    · rw [alHas] at h
      simp only [hp, decide_False, Bool.false_or] at h
      rw [List.countP_cons_of_neg _ _ (by simpa using hp)]
      exact ih hnd.2 h

theorem filter_key_eq_of_nodup {m : AList α} {k : String} {v : α}
    (hnd : keysNodup m) (hg : alGet m k = some v) :
    m.filter (fun p => p.1 = k) = [(k, v)] := by
  induction m with
  | nil => cases hg
  | cons p t ih =>
    simp only [keysNodup, List.map_cons, List.nodup_cons] at hnd
    by_cases hp : p.1 = k
    · rw [alGet, if_pos hp] at hg
      cases hg
      have hz : t.filter (fun p => p.1 = k) = [] := by
        rw [List.filter_eq_nil_iff]
        intro q hq
        simp only [decide_eq_true_eq]
        intro he
        exact hnd.1 (by simpa [hp, he] using List.mem_map_of_mem Prod.fst hq)
      rw [List.filter_cons_of_pos (by simpa using hp), hz]
      cases p
      cases hp
      rfl
    · rw [alGet, if_neg hp] at hg
      rw [List.filter_cons_of_neg (by simpa using hp)]
      exact ih hnd.2 hg

/-! ## Strings: the reserved reverse-index key marker -/

/-- Go `const subTopic = "sub-topic-"`. -/
def subTopic : String := "sub-topic-"

/-- Models Go `strings.HasPrefix(s, pre)` on the underlying character lists. -/
def goHasPre (s pre : String) : Bool :=
  pre.data.isPrefixOf s.data

/-- The topic remaining after the `subTopic` marker of a reverse-index key. -/
def dropPre (k : String) : String :=
  ⟨k.data.drop subTopic.data.length⟩

theorem str_ext {a b : String} (h : a.data = b.data) : a = b := by
  cases a
  cases b
  cases h
  rfl

theorem str_data_append (a b : String) : (a ++ b).data = a.data ++ b.data := by
  cases a
  cases b
  rfl

theorem subTopic_append_cancel {a b : String}
    (h : subTopic ++ a = subTopic ++ b) : a = b := by
  have hd := congrArg String.data h
  rw [str_data_append, str_data_append] at hd
  exact str_ext (List.append_cancel_left hd)

theorem hasPre_append (t : String) : goHasPre (subTopic ++ t) subTopic = true := by
  unfold goHasPre
  rw [str_data_append]
  exact List.isPrefixOf_iff_prefix.2 (List.prefix_append _ _)

theorem dropPre_append (t : String) : dropPre (subTopic ++ t) = t := by
  unfold dropPre
  rw [str_data_append, List.drop_left]

theorem decomp_of_hasPre {k : String} (h : goHasPre k subTopic = true) :
    k = subTopic ++ dropPre k := by
  unfold goHasPre at h
  obtain ⟨r, hr⟩ := List.isPrefixOf_iff_prefix.1 h
  apply str_ext
  rw [str_data_append]
  unfold dropPre
  rw [← hr, List.drop_left]

/-! ## The data model (from `types.go` and the emitter source) -/

/-- Go `any` values, restricted to the shapes the program stores and reads:
`Subscribe` stores topic strings under reverse-index keys; anything else a
caller might store is `other`. -/
inductive MValue where
  | str (s : String)
  | other (n : Nat)
deriving DecidableEq

/-- The per-subscriber `smap` metadata store (`Metadata` interface). -/
abbrev Metadata := AList MValue

/-- A subscriber: `GetSubscriberID()` is `id`, and `md` is a reference
(an address) to its `Metadata` store held in the emitter state. -/
structure Suber where
  id : String
  md : Nat
deriving DecidableEq

/-- Go `type eventCallback[T] func(suber T, msg any) error`. -/
abbrev eventCallback (Msg Err : Type) := Suber → Msg → Option Err

/-- Go `topicElement`: the `{subscriber, callback}` pair stored per id. -/
structure topicElement (Msg Err : Type) where
  suber : Suber
  cb : eventCallback Msg Err

/-- Go `topicField`: `subers map[string]topicElement` keyed by subscriber id. -/
structure topicField (Msg Err : Type) where
  subers : AList (topicElement Msg Err)

/-- Go `bucket`: one shard, `Topics map[string]*topicField`. The mutex is
serialisation, absent from the sequential embedding; `Size` is the
capacity hint, semantically inert. -/
structure bucket (Msg Err : Type) where
  Size : Int
  Topics : AList (topicField Msg Err)

/-- Go `EventEmitter`: `conf.BucketNum` plus the shard array.  `stores`
holds every subscriber's metadata store, addressed by `Suber.md`; in Go
each subscriber owns its store, here they live in the state so that
operations can update them.  The `maphash.Seed` is abstracted into the
`hash` parameter each operation takes. -/
structure EventEmitter (Msg Err : Type) where
  bucketNum : Nat
  buckets : List (bucket Msg Err)
  stores : Nat → Metadata

variable {Msg Err : Type}

/-! ## Shard (bucket) operations, from the source -/

/-- Go `bucket.subscribe`: lazily create the topic's field, then
insert-or-overwrite the entry keyed by the subscriber id. -/
def bucket.subscribe (c : bucket Msg Err) (suber : Suber) (topic : String)
    (f : eventCallback Msg Err) : bucket Msg Err :=
  let subId := suber.id
  let ele : topicElement Msg Err := ⟨suber, f⟩
  match alGet c.Topics topic with
  | none => { c with Topics := alSet c.Topics topic ⟨alSet [] subId ele⟩ }
  | some t => { c with Topics := alSet c.Topics topic ⟨alSet t.subers subId ele⟩ }

/-- Go `bucket.publish`: returns the invocation trace, one entry
`(subscriber, callback, message)` per registered element, in place of the
effectful `v.cb(v.suber, msg)` calls. -/
def bucket.publish (c : bucket Msg Err) (topic : String) (msg : Msg) :
    List (Suber × eventCallback Msg Err × Msg) :=
  match alGet c.Topics topic with
  | none => []
  | some t => t.subers.map (fun p => (p.2.suber, p.2.cb, msg))

/-- The observable behaviour of one `publish_e` call: the subscribers on
which `checkSent` was evaluated, the callback invocations, and the
`(subscriber, error)` pairs passed to `f`, in order. -/
structure PubETrace (Msg Err : Type) where
  checked : List Suber
  invoked : List (Suber × eventCallback Msg Err)
  reported : List (Suber × Option Err)

/-- The loop body of `bucket.publish_e` over the registration entries. -/
def pubELoop (msg : Msg) (checkSent : Suber → Bool) :
    List (String × topicElement Msg Err) → PubETrace Msg Err
  | [] => ⟨[], [], []⟩
  | p :: rest =>
    let v := p.2
    let tail := pubELoop msg checkSent rest
    if checkSent v.suber then
      ⟨v.suber :: tail.checked, tail.invoked, tail.reported⟩
    else
      ⟨v.suber :: tail.checked, (v.suber, v.cb) :: tail.invoked,
        (v.suber, v.cb v.suber msg) :: tail.reported⟩

/-- Go `bucket.publish_e`: for each registered subscriber, evaluate
`checkSent`; if false, invoke the callback and report `(suber, err)`. -/
def bucket.publish_e (c : bucket Msg Err) (topic : String) (msg : Msg)
    (checkSent : Suber → Bool) : PubETrace Msg Err :=
  match alGet c.Topics topic with
  | none => ⟨[], [], []⟩
  | some t => pubELoop msg checkSent t.subers

/-- Go `bucket.unSubscribe`: delete the id from the topic's registration
if the topic exists. -/
def bucket.unSubscribe (c : bucket Msg Err) (suber : Suber) (topic : String) :
    bucket Msg Err :=
  match alGet c.Topics topic with
  | none => c
  | some v => { c with Topics := alSet c.Topics topic ⟨alDel v.subers suber.id⟩ }

/-- Go `bucket.countTopicSubscriber`. -/
def bucket.countTopicSubscriber (c : bucket Msg Err) (topic : String) : Nat :=
  match alGet c.Topics topic with
  | none => 0
  | some v => v.subers.length

/-! ## Emitter operations, from the source -/

/-- Go `getBucket`: `maphash.String(seed, topic) & uint64(BucketNum-1)`.
The seeded hash is the arbitrary parameter `hash`. -/
def getBucketIdx (st : EventEmitter Msg Err) (hash : String → Nat)
    (topic : String) : Nat :=
  hash topic &&& (st.bucketNum - 1)

/-- The shard a topic resolves to (`c.buckets[i]`). -/
def bucketAt (st : EventEmitter Msg Err) (hash : String → Nat)
    (topic : String) : bucket Msg Err :=
  st.buckets.getD (getBucketIdx st hash topic) ⟨0, []⟩

/-- Replace one subscriber's metadata store in the state. -/
def storeSet (st : EventEmitter Msg Err) (r : Nat) (m : Metadata) :
    EventEmitter Msg Err :=
  { st with stores := fun r' => if r' = r then m else st.stores r' }

/-- Apply `f` to the shard at index `i`. -/
def updBucket (st : EventEmitter Msg Err) (i : Nat)
    (f : bucket Msg Err → bucket Msg Err) : EventEmitter Msg Err :=
  { st with buckets := st.buckets.set i (f (st.buckets.getD i ⟨0, []⟩)) }

/-- Go `EventEmitter.Subscribe`: store the reverse-index entry
(`md.Store(subTopic+topic, topic)`), then delegate to the shard. -/
def Subscribe (st : EventEmitter Msg Err) (hash : String → Nat) (suber : Suber)
    (topic : String) (f : eventCallback Msg Err) : EventEmitter Msg Err :=
  updBucket
    (storeSet st suber.md
      (alSet (st.stores suber.md) (subTopic ++ topic) (MValue.str topic)))
    (getBucketIdx st hash topic)
    (fun b => b.subscribe suber topic f)

/-- Go `EventEmitter.UnSubscribe`: delete the reverse-index entry
(`md.Delete(subTopic+topic)`), then delegate to the shard. -/
def UnSubscribe (st : EventEmitter Msg Err) (hash : String → Nat) (suber : Suber)
    (topic : String) : EventEmitter Msg Err :=
  updBucket
    (storeSet st suber.md
      (alDel (st.stores suber.md) (subTopic ++ topic)))
    (getBucketIdx st hash topic)
    (fun b => b.unSubscribe suber topic)

/-- The `md.Range` loop shared by `UnSubscribeAll` and
`GetTopicsBySubscriber`: collect `value.(string)` for every entry whose key
has the `subTopic` marker.  `none` models the panic of the failing type
assertion on a non-string value. -/
def collectTopics : Metadata → Option (List String)
  | [] => some []
  | p :: rest =>
    if goHasPre p.1 subTopic then
      match p.2 with
      | MValue.str t => (collectTopics rest).map (fun ts => t :: ts)
      | MValue.other _ => none
    else collectTopics rest

/-- Go `EventEmitter.UnSubscribeAll`: collect the topics from the
metadata store, then for each one delete the reverse-index entry and
unsubscribe from the resolved shard (the loop body is exactly
`UnSubscribe`). -/
def UnSubscribeAll (st : EventEmitter Msg Err) (hash : String → Nat)
    (suber : Suber) : Option (EventEmitter Msg Err) :=
  (collectTopics (st.stores suber.md)).map
    (fun ts => ts.foldl (fun s t => UnSubscribe s hash suber t) st)

/-- Go `EventEmitter.GetTopicsBySubscriber`. -/
def GetTopicsBySubscriber (st : EventEmitter Msg Err) (suber : Suber) :
    Option (List String) :=
  collectTopics (st.stores suber.md)

/-- Go `EventEmitter.Publish`: resolve the shard and delegate. -/
def Publish (st : EventEmitter Msg Err) (hash : String → Nat) (topic : String)
    (msg : Msg) : List (Suber × eventCallback Msg Err × Msg) :=
  (bucketAt st hash topic).publish topic msg

/-- Go `EventEmitter.PublishE`: resolve the shard and delegate. -/
def PublishE (st : EventEmitter Msg Err) (hash : String → Nat) (topic : String)
    (msg : Msg) (checkSent : Suber → Bool) : PubETrace Msg Err :=
  (bucketAt st hash topic).publish_e topic msg checkSent

/-- Go `EventEmitter.CountSubscriberByTopic`. -/
def CountSubscriberByTopic (st : EventEmitter Msg Err) (hash : String → Nat)
    (topic : String) : Nat :=
  (bucketAt st hash topic).countTopicSubscriber topic

/-- The state `New` builds once the bucket count `n` is fixed: `n` empty
shards (every metadata store empty). -/
def newState (n : Nat) : EventEmitter Msg Err :=
  ⟨n, List.replicate n ⟨0, []⟩, fun _ => []⟩

/-! ## `Config.init` / `toBinaryNumber` on int64, from the source -/

/-- Two's-complement wrap-around of an `int64` arithmetic result. -/
def wrap (z : Int) : Int :=
  (z + 2 ^ 63) % 2 ^ 64 - 2 ^ 63

/-- Go `toBinaryNumber`: `x := 1; for x < n { x *= 2 }; return x`, with
`x *= 2` wrapping as int64 does.  Fuel-indexed: `none` means the loop has
not finished within `fuel` checks of the loop condition. -/
def tbnFuel (n : Int) : Nat → Int → Option Int
  | 0, _ => none
  | fuel + 1, x => if x < n then tbnFuel n fuel (wrap (x * 2)) else some x

/-- Go `Config.init` + `New`: default a non-positive `BucketNum` to 16,
round with `toBinaryNumber`, then allocate that many shards. -/
def NewFuel (n : Int) (fuel : Nat) : Option (EventEmitter Msg Err) :=
  (tbnFuel (if n ≤ 0 then 16 else n) fuel 1).map (fun r => newState r.toNat)

/-! ## Well-formedness of reachable states -/

/-- The registration entries of topic `T` in its resolved shard
(`[]` when the topic is absent). -/
def regOf (st : EventEmitter Msg Err) (hash : String → Nat) (T : String) :
    AList (topicElement Msg Err) :=
  match alGet (bucketAt st hash T).Topics T with
  | none => []
  | some f => f.subers

/-- Whether subscriber id `i` is registered to topic `T`. -/
def regHas (st : EventEmitter Msg Err) (hash : String → Nat) (T : String)
    (i : String) : Bool :=
  alHas (regOf st hash T) i

/-- A metadata store as `Subscribe` maintains it: every entry carrying the
reserved marker is `subTopic ++ t ↦ str t`. -/
@[reducible] def storeWf (m : Metadata) : Prop :=
  ∀ p ∈ m, goHasPre p.1 subTopic = true →
    p.1 = subTopic ++ dropPre p.1 ∧ p.2 = MValue.str (dropPre p.1)

theorem storeWf_apply {m : Metadata} (h : storeWf m) {k : String} {v : MValue}
    (hm : (k, v) ∈ m) (hp : goHasPre k subTopic = true) :
    k = subTopic ++ dropPre k ∧ v = MValue.str (dropPre k) :=
  h (k, v) hm hp

/-- Structural well-formedness of an emitter state: the shard array has
`bucketNum ≥ 1` entries (as `New` allocates), every Go map has unique
keys, and every registration entry is keyed by its subscriber's id. -/
@[reducible] def StWf (st : EventEmitter Msg Err) : Prop :=
  st.buckets.length = st.bucketNum ∧ 0 < st.bucketNum ∧
  ∀ b ∈ st.buckets, keysNodup b.Topics ∧
    ∀ p ∈ b.Topics, keysNodup p.2.subers ∧
      ∀ q ∈ p.2.subers, q.2.suber.id = q.1

/-! ## List index helpers -/

theorem listGetD_set_self {β : Type} :
    ∀ (l : List β) (i : Nat) (x d : β), i < l.length →
      (l.set i x).getD i d = x := by
  intro l
  induction l with
  | nil => intro i x d h; cases h
  | cons a t ih =>
    intro i x d h
    cases i with
    | zero => rfl
    | succ j => exact ih j x d (Nat.lt_of_succ_lt_succ h)

theorem listGetD_set_ne {β : Type} :
    ∀ (l : List β) (i j : Nat) (x d : β), i ≠ j →
      (l.set i x).getD j d = l.getD j d := by
  intro l
  induction l with
  | nil => intro i j x d _; rfl
  | cons a t ih =>
    intro i j x d h
    cases i with
    | zero =>
      cases j with
      | zero => exact absurd rfl h
      | succ j' => rfl
    | succ i' =>
      cases j with
      | zero => rfl
      | succ j' => exact ih i' j' x d (fun he => h (congrArg Nat.succ he))

theorem listSet_getD_self {β : Type} :
    ∀ (l : List β) (i : Nat) (d : β), l.set i (l.getD i d) = l := by
  intro l
  induction l with
  | nil => intro i d; rfl
  | cons a t ih =>
    intro i d
    cases i with
    | zero => rfl
    | succ j => simpa using congrArg (List.cons a) (ih j d)

theorem listGetD_mem {β : Type} :
    ∀ (l : List β) (i : Nat) (d : β), i < l.length → l.getD i d ∈ l := by
  intro l
  induction l with
  | nil => intro i d h; cases h
  | cons a t ih =>
    intro i d h
    cases i with
    | zero => exact List.mem_cons_self a t
    | succ j =>
      exact List.mem_cons_of_mem a (ih j d (Nat.lt_of_succ_lt_succ h))

/-! ## Effect of the operations on state components -/

theorem getBucketIdx_lt {st : EventEmitter Msg Err} (hash : String → Nat)
    (T : String) (hlen : st.buckets.length = st.bucketNum)
    (hpos : 0 < st.bucketNum) : getBucketIdx st hash T < st.buckets.length := by
  rw [hlen]
  exact lt_of_le_of_lt Nat.and_le_right (Nat.sub_lt hpos Nat.one_pos)

theorem stores_Subscribe (st : EventEmitter Msg Err) (hash : String → Nat)
    (S : Suber) (T : String) (cb : eventCallback Msg Err) (r : Nat) :
    (Subscribe st hash S T cb).stores r =
      if r = S.md then alSet (st.stores S.md) (subTopic ++ T) (MValue.str T)
      else st.stores r := rfl

theorem stores_UnSubscribe (st : EventEmitter Msg Err) (hash : String → Nat)
    (S : Suber) (T : String) (r : Nat) :
    (UnSubscribe st hash S T).stores r =
      if r = S.md then alDel (st.stores S.md) (subTopic ++ T)
      else st.stores r := rfl

theorem bucketNum_Subscribe (st : EventEmitter Msg Err) (hash : String → Nat)
    (S : Suber) (T : String) (cb : eventCallback Msg Err) :
    (Subscribe st hash S T cb).bucketNum = st.bucketNum := rfl

theorem bucketNum_UnSubscribe (st : EventEmitter Msg Err) (hash : String → Nat)
    (S : Suber) (T : String) :
    (UnSubscribe st hash S T).bucketNum = st.bucketNum := rfl

theorem bucketsLen_Subscribe (st : EventEmitter Msg Err) (hash : String → Nat)
    (S : Suber) (T : String) (cb : eventCallback Msg Err) :
    (Subscribe st hash S T cb).buckets.length = st.buckets.length := by
  simp [Subscribe, updBucket, storeSet]

theorem bucketsLen_UnSubscribe (st : EventEmitter Msg Err) (hash : String → Nat)
    (S : Suber) (T : String) :
    (UnSubscribe st hash S T).buckets.length = st.buckets.length := by
  simp [UnSubscribe, updBucket, storeSet]

theorem regOf_Subscribe_self (st : EventEmitter Msg Err) (hash : String → Nat)
    (S : Suber) (T : String) (cb : eventCallback Msg Err)
    (hlen : st.buckets.length = st.bucketNum) (hpos : 0 < st.bucketNum) :
    regOf (Subscribe st hash S T cb) hash T =
      alSet (regOf st hash T) S.id ⟨S, cb⟩ := by
  have hidx := getBucketIdx_lt hash T hlen hpos
  unfold regOf bucketAt
  have hb : (Subscribe st hash S T cb).buckets.getD
      (getBucketIdx (Subscribe st hash S T cb) hash T) ⟨0, []⟩ =
      (st.buckets.getD (getBucketIdx st hash T) ⟨0, []⟩).subscribe S T cb := by
    show (st.buckets.set (getBucketIdx st hash T) _).getD (getBucketIdx st hash T) _ = _
    exact listGetD_set_self _ _ _ _ hidx
  rw [hb]
  set b := st.buckets.getD (getBucketIdx st hash T) ⟨0, []⟩ with hbdef
  unfold bucket.subscribe
  cases hg : alGet b.Topics T with
  | none => simp [hg, alGet_set_self]
  | some f => simp [hg, alGet_set_self]

theorem regOf_Subscribe_ne (st : EventEmitter Msg Err) (hash : String → Nat)
    (S : Suber) (T T' : String) (cb : eventCallback Msg Err) (hT : T' ≠ T) :
    regOf (Subscribe st hash S T cb) hash T' = regOf st hash T' := by
  unfold regOf bucketAt
  by_cases hi : getBucketIdx st hash T' = getBucketIdx st hash T
  · by_cases hlt : getBucketIdx st hash T < st.buckets.length
    · have hb : (Subscribe st hash S T cb).buckets.getD
          (getBucketIdx (Subscribe st hash S T cb) hash T') ⟨0, []⟩ =
          (st.buckets.getD (getBucketIdx st hash T) ⟨0, []⟩).subscribe S T cb := by
        show (st.buckets.set (getBucketIdx st hash T) _).getD
          (getBucketIdx st hash T') _ = _
        rw [hi]
        exact listGetD_set_self _ _ _ _ hlt
      rw [hb, hi]
      set b := st.buckets.getD (getBucketIdx st hash T) ⟨0, []⟩ with hbdef
      unfold bucket.subscribe
      cases hg : alGet b.Topics T with
      | none => simp [alGet_set_ne _ _ hT]
      | some f => simp [alGet_set_ne _ _ hT]
    · have hset : (Subscribe st hash S T cb).buckets = st.buckets :=
        List.set_eq_of_length_le (Nat.le_of_not_lt hlt)
      rw [show (Subscribe st hash S T cb).buckets.getD
          (getBucketIdx (Subscribe st hash S T cb) hash T') ⟨0, []⟩ =
          st.buckets.getD (getBucketIdx st hash T') ⟨0, []⟩ from by rw [hset]; rfl]
  · have hb : (Subscribe st hash S T cb).buckets.getD
        (getBucketIdx (Subscribe st hash S T cb) hash T') ⟨0, []⟩ =
        st.buckets.getD (getBucketIdx st hash T') ⟨0, []⟩ := by
      show (st.buckets.set (getBucketIdx st hash T) _).getD
        (getBucketIdx st hash T') _ = _
      exact listGetD_set_ne _ _ _ _ _ (fun he => hi he.symm)
    rw [hb]

theorem regOf_UnSubscribe_self (st : EventEmitter Msg Err) (hash : String → Nat)
    (S : Suber) (T : String)
    (hlen : st.buckets.length = st.bucketNum) (hpos : 0 < st.bucketNum) :
    regOf (UnSubscribe st hash S T) hash T = alDel (regOf st hash T) S.id := by
  have hidx := getBucketIdx_lt hash T hlen hpos
  unfold regOf bucketAt
  have hb : (UnSubscribe st hash S T).buckets.getD
      (getBucketIdx (UnSubscribe st hash S T) hash T) ⟨0, []⟩ =
      (st.buckets.getD (getBucketIdx st hash T) ⟨0, []⟩).unSubscribe S T := by
    show (st.buckets.set (getBucketIdx st hash T) _).getD (getBucketIdx st hash T) _ = _
    exact listGetD_set_self _ _ _ _ hidx
  rw [hb]
  set b := st.buckets.getD (getBucketIdx st hash T) ⟨0, []⟩ with hbdef
  unfold bucket.unSubscribe
  cases hg : alGet b.Topics T with
  | none => simp [hg, alDel]
  | some f => simp [hg, alGet_set_self]

theorem regOf_UnSubscribe_ne (st : EventEmitter Msg Err) (hash : String → Nat)
    (S : Suber) (T T' : String) (hT : T' ≠ T) :
    regOf (UnSubscribe st hash S T) hash T' = regOf st hash T' := by
  unfold regOf bucketAt
  by_cases hi : getBucketIdx st hash T' = getBucketIdx st hash T
  · by_cases hlt : getBucketIdx st hash T < st.buckets.length
    · have hb : (UnSubscribe st hash S T).buckets.getD
          (getBucketIdx (UnSubscribe st hash S T) hash T') ⟨0, []⟩ =
          (st.buckets.getD (getBucketIdx st hash T) ⟨0, []⟩).unSubscribe S T := by
        show (st.buckets.set (getBucketIdx st hash T) _).getD
          (getBucketIdx st hash T') _ = _
        rw [hi]
        exact listGetD_set_self _ _ _ _ hlt
      rw [hb, hi]
      set b := st.buckets.getD (getBucketIdx st hash T) ⟨0, []⟩ with hbdef
      unfold bucket.unSubscribe
      cases hg : alGet b.Topics T with
      | none => rfl
      | some f => simp [alGet_set_ne _ _ hT]
    · have hset : (UnSubscribe st hash S T).buckets = st.buckets :=
        List.set_eq_of_length_le (Nat.le_of_not_lt hlt)
      rw [show (UnSubscribe st hash S T).buckets.getD
          (getBucketIdx (UnSubscribe st hash S T) hash T') ⟨0, []⟩ =
          st.buckets.getD (getBucketIdx st hash T') ⟨0, []⟩ from by rw [hset]; rfl]
  · have hb : (UnSubscribe st hash S T).buckets.getD
        (getBucketIdx (UnSubscribe st hash S T) hash T') ⟨0, []⟩ =
        st.buckets.getD (getBucketIdx st hash T') ⟨0, []⟩ := by
      show (st.buckets.set (getBucketIdx st hash T) _).getD
        (getBucketIdx st hash T') _ = _
      exact listGetD_set_ne _ _ _ _ _ (fun he => hi he.symm)
    rw [hb]

/-! ## Well-formedness preservation -/

/-- The per-shard component of `StWf`. -/
@[reducible] def bucketWf (b : bucket Msg Err) : Prop :=
  keysNodup b.Topics ∧
  ∀ p ∈ b.Topics, keysNodup p.2.subers ∧
    ∀ q ∈ p.2.subers, q.2.suber.id = q.1

theorem StWf_iff (st : EventEmitter Msg Err) :
    StWf st ↔ st.buckets.length = st.bucketNum ∧ 0 < st.bucketNum ∧
      ∀ b ∈ st.buckets, bucketWf b := by
  unfold StWf bucketWf
  tauto

theorem bucketWf_subscribe {b : bucket Msg Err} (S : Suber) (T : String)
    (cb : eventCallback Msg Err) (h : bucketWf b) :
    bucketWf (b.subscribe S T cb) := by
  obtain ⟨h1, h2⟩ := h
  unfold bucket.subscribe
  cases hg : alGet b.Topics T with
  | none =>
    refine ⟨keysNodup_set T _ h1, ?_⟩
    intro p hp
    rcases mem_alSet hp with ⟨hk, hv⟩ | hm
    · rw [hv]
      refine ⟨by simp [keysNodup, alSet], ?_⟩
      intro q hq
      simp only [alSet] at hq
      rcases List.mem_singleton.1 hq with he
      rw [he]
    · exact h2 p hm
  | some f =>
    refine ⟨keysNodup_set T _ h1, ?_⟩
    intro p hp
    rcases mem_alSet hp with ⟨hk, hv⟩ | hm
    · rw [hv]
      obtain ⟨hnd, hids⟩ := h2 (T, f) (mem_of_alGet hg)
      refine ⟨keysNodup_set _ _ hnd, ?_⟩
      intro q hq
      rcases mem_alSet hq with ⟨hk', hv'⟩ | hm'
      · obtain ⟨qk, qv⟩ := q
        cases hk'
        cases hv'
        rfl
      · exact hids q hm'
    · exact h2 p hm

theorem bucketWf_unSubscribe {b : bucket Msg Err} (S : Suber) (T : String)
    (h : bucketWf b) : bucketWf (b.unSubscribe S T) := by
  obtain ⟨h1, h2⟩ := h
  unfold bucket.unSubscribe
  cases hg : alGet b.Topics T with
  | none => exact ⟨h1, h2⟩
  | some v =>
    refine ⟨keysNodup_set T _ h1, ?_⟩
    intro p hp
    rcases mem_alSet hp with ⟨hk, hv⟩ | hm
    · rw [hv]
      obtain ⟨hnd, hids⟩ := h2 (T, v) (mem_of_alGet hg)
      refine ⟨keysNodup_del _ hnd, ?_⟩
      intro q hq
      exact hids q (mem_alDel hq).1
    · exact h2 p hm

theorem StWf_Subscribe {st : EventEmitter Msg Err} (hash : String → Nat)
    (S : Suber) (T : String) (cb : eventCallback Msg Err) (h : StWf st) :
    StWf (Subscribe st hash S T cb) := by
  rw [StWf_iff] at h ⊢
  obtain ⟨hlen, hpos, hb⟩ := h
  refine ⟨by rw [bucketsLen_Subscribe, bucketNum_Subscribe]; exact hlen,
    by rw [bucketNum_Subscribe]; exact hpos, ?_⟩
  intro b' hb'
  have hb'' : b' ∈ st.buckets ∨
      b' = (st.buckets.getD (getBucketIdx st hash T) ⟨0, []⟩).subscribe S T cb :=
    List.mem_or_eq_of_mem_set hb'
  rcases hb'' with hm | he
  · exact hb b' hm
  · subst he
    by_cases hlt : getBucketIdx st hash T < st.buckets.length
    · exact bucketWf_subscribe S T cb (hb _ (listGetD_mem _ _ _ hlt))
    · have : st.buckets.getD (getBucketIdx st hash T) ⟨0, []⟩ = ⟨0, []⟩ := by
        rw [List.getD_eq_getElem?_getD, List.getElem?_eq_none (Nat.le_of_not_lt hlt)]
        rfl
      rw [this]
      exact bucketWf_subscribe S T cb ⟨by simp [keysNodup], by simp⟩

theorem StWf_UnSubscribe {st : EventEmitter Msg Err} (hash : String → Nat)
    (S : Suber) (T : String) (h : StWf st) :
    StWf (UnSubscribe st hash S T) := by
  rw [StWf_iff] at h ⊢
  obtain ⟨hlen, hpos, hb⟩ := h
  refine ⟨by rw [bucketsLen_UnSubscribe, bucketNum_UnSubscribe]; exact hlen,
    by rw [bucketNum_UnSubscribe]; exact hpos, ?_⟩
  intro b' hb'
  have hb'' : b' ∈ st.buckets ∨
      b' = (st.buckets.getD (getBucketIdx st hash T) ⟨0, []⟩).unSubscribe S T :=
    List.mem_or_eq_of_mem_set hb'
  rcases hb'' with hm | he
  · exact hb b' hm
  · subst he
    by_cases hlt : getBucketIdx st hash T < st.buckets.length
    · exact bucketWf_unSubscribe S T (hb _ (listGetD_mem _ _ _ hlt))
    · have : st.buckets.getD (getBucketIdx st hash T) ⟨0, []⟩ = ⟨0, []⟩ := by
        rw [List.getD_eq_getElem?_getD, List.getElem?_eq_none (Nat.le_of_not_lt hlt)]
        rfl
      rw [this]
      exact bucketWf_unSubscribe S T ⟨by simp [keysNodup], by simp⟩

theorem regOf_bucketWf {st : EventEmitter Msg Err} (hash : String → Nat)
    (T : String) (h : StWf st) :
    keysNodup (regOf st hash T) ∧ ∀ q ∈ regOf st hash T, q.2.suber.id = q.1 := by
  rw [StWf_iff] at h
  obtain ⟨hlen, hpos, hb⟩ := h
  have hlt : getBucketIdx st hash T < st.buckets.length :=
    getBucketIdx_lt hash T hlen hpos
  have hw : bucketWf (bucketAt st hash T) := hb _ (listGetD_mem _ _ _ hlt)
  unfold regOf
  cases hg : alGet (bucketAt st hash T).Topics T with
  | none => exact ⟨by simp [keysNodup], by simp⟩
  | some f => exact hw.2 (T, f) (mem_of_alGet hg)

/-! ## No-op characterisations -/

theorem storeSet_self (st : EventEmitter Msg Err) (r : Nat) :
    storeSet st r (st.stores r) = st := by
  have hf : (fun r' => if r' = r then st.stores r else st.stores r') = st.stores := by
    funext r'
    by_cases h : r' = r
    · rw [if_pos h, h]
    · rw [if_neg h]
  show { st with stores := _ } = st
  rw [hf]

theorem updBucket_id (st : EventEmitter Msg Err) (i : Nat)
    (f : bucket Msg Err → bucket Msg Err)
    (h : f (st.buckets.getD i ⟨0, []⟩) = st.buckets.getD i ⟨0, []⟩) :
    updBucket st i f = st := by
  show { st with buckets := _ } = st
  rw [h, listSet_getD_self]

theorem unsub_noop {st : EventEmitter Msg Err} {hash : String → Nat}
    {S : Suber} {T : String} (hwf : StWf st)
    (hmd : alHas (st.stores S.md) (subTopic ++ T) = false)
    (hreg : regHas st hash T S.id = false) :
    UnSubscribe st hash S T = st := by
  rw [StWf_iff] at hwf
  obtain ⟨hlen, hpos, hb⟩ := hwf
  have hlt : getBucketIdx st hash T < st.buckets.length :=
    getBucketIdx_lt hash T hlen hpos
  have hW : bucketWf (bucketAt st hash T) := hb _ (listGetD_mem _ _ _ hlt)
  unfold UnSubscribe
  rw [alDel_of_not_has hmd, storeSet_self]
  apply updBucket_id
  show (bucketAt st hash T).unSubscribe S T = bucketAt st hash T
  unfold bucket.unSubscribe
  cases hg : alGet (bucketAt st hash T).Topics T with
  | none => rfl
  | some v =>
    have hsub : regOf st hash T = v.subers := by
      unfold regOf
      rw [hg]
    rw [regHas, hsub] at hreg
    show { bucketAt st hash T with
      Topics := alSet (bucketAt st hash T).Topics T ⟨alDel v.subers S.id⟩ } = _
    rw [alDel_of_not_has hreg,
      show (⟨v.subers⟩ : topicField Msg Err) = v from rfl,
      alSet_self hW.1 hg]

/-! ## Read-side bridges -/

theorem count_eq_regOf_length (st : EventEmitter Msg Err) (hash : String → Nat)
    (T : String) : CountSubscriberByTopic st hash T = (regOf st hash T).length := by
  unfold CountSubscriberByTopic bucket.countTopicSubscriber regOf
  cases alGet (bucketAt st hash T).Topics T with
  | none => rfl
  | some v => rfl

theorem publish_eq_regOf_map (st : EventEmitter Msg Err) (hash : String → Nat)
    (T : String) (msg : Msg) :
    Publish st hash T msg =
      (regOf st hash T).map (fun p => (p.2.suber, p.2.cb, msg)) := by
  unfold Publish bucket.publish regOf
  cases alGet (bucketAt st hash T).Topics T with
  | none => rfl
  | some v => rfl

/-! ## Reverse-index store lemmas -/

theorem storeWf_nil : storeWf ([] : Metadata) := by
  intro p hm
  cases hm

theorem storeWf_del {m : Metadata} (k : String) (h : storeWf m) :
    storeWf (alDel m k) := by
  intro p hm hp
  obtain ⟨pk, pv⟩ := p
  exact h (pk, pv) (mem_alDel hm).1 hp

theorem storeWf_set {m : Metadata} (T : String) (h : storeWf m) :
    storeWf (alSet m (subTopic ++ T) (MValue.str T)) := by
  intro p hm hp
  obtain ⟨pk, pv⟩ := p
  rcases mem_alSet hm with ⟨hk, hv⟩ | hm'
  · subst hk
    subst hv
    show subTopic ++ T = subTopic ++ dropPre (subTopic ++ T) ∧
      MValue.str T = MValue.str (dropPre (subTopic ++ T))
    rw [dropPre_append]
    exact ⟨rfl, rfl⟩
  · exact h (pk, pv) hm' hp

theorem collect_some_of_wf {m : Metadata} (h : storeWf m) :
    ∃ ts, collectTopics m = some ts := by
  induction m with
  | nil => exact ⟨[], rfl⟩
  | cons p t ih =>
    have ht : storeWf t := by
      intro q hm hp
      exact h q (List.mem_cons_of_mem _ hm) hp
    obtain ⟨ts, hts⟩ := ih ht
    by_cases hp : goHasPre p.1 subTopic = true
    · obtain ⟨_, hv⟩ := h p (List.mem_cons_self _ _) hp
      refine ⟨dropPre p.1 :: ts, ?_⟩
      rw [collectTopics, if_pos hp, hv, hts]
      rfl
    · refine ⟨ts, ?_⟩
      rw [collectTopics, if_neg hp]
      exact hts

theorem collect_mem_val {m : Metadata} {ts : List String} {k t : String}
    (hc : collectTopics m = some ts) (hm : (k, MValue.str t) ∈ m)
    (hp : goHasPre k subTopic = true) : t ∈ ts := by
  induction m generalizing ts with
  | nil => cases hm
  | cons p rest ih =>
    rcases List.mem_cons.1 hm with he | hmem
    · rw [collectTopics] at hc
      rw [show p.1 = k from congrArg Prod.fst he.symm] at hc
      rw [if_pos hp, show p.2 = MValue.str t from congrArg Prod.snd he.symm] at hc
      obtain ⟨ts', hts', he'⟩ := Option.map_eq_some'.1 hc
      rw [← he']
      exact List.mem_cons_self _ _
    · rw [collectTopics] at hc
      by_cases hpre : goHasPre p.1 subTopic = true
      · rw [if_pos hpre] at hc
        cases hv : p.2 with
        | str s =>
          rw [hv] at hc
          obtain ⟨ts', hts', he'⟩ := Option.map_eq_some'.1 hc
          rw [← he']
          exact List.mem_cons_of_mem _ (ih hts' hmem)
        | other n =>
          rw [hv] at hc
          cases hc
      · rw [if_neg hpre] at hc
        exact ih hc hmem

theorem collect_src {m : Metadata} {ts : List String} {t : String}
    (hc : collectTopics m = some ts) (ht : t ∈ ts) :
    ∃ k, (k, MValue.str t) ∈ m ∧ goHasPre k subTopic = true := by
  induction m generalizing ts with
  | nil =>
    rw [collectTopics] at hc
    cases hc
    cases ht
  | cons p rest ih =>
    rw [collectTopics] at hc
    by_cases hpre : goHasPre p.1 subTopic = true
    · rw [if_pos hpre] at hc
      cases hv : p.2 with
      | str s =>
        rw [hv] at hc
        obtain ⟨ts', hts', he'⟩ := Option.map_eq_some'.1 hc
        rw [← he'] at ht
        rcases List.mem_cons.1 ht with he2 | hmem
        · refine ⟨p.1, ?_, hpre⟩
          have hpm : (p.1, p.2) ∈ p :: rest := List.mem_cons_self p rest
          rw [hv, ← he2] at hpm
          exact hpm
        · obtain ⟨k, hk1, hk2⟩ := ih hts' hmem
          exact ⟨k, List.mem_cons_of_mem _ hk1, hk2⟩
      | other n =>
        rw [hv] at hc
        cases hc
    · rw [if_neg hpre] at hc
      obtain ⟨k, hk1, hk2⟩ := ih hc ht
      exact ⟨k, List.mem_cons_of_mem _ hk1, hk2⟩

theorem collect_nil_of_noPre {m : Metadata}
    (h : ∀ k v, (k, v) ∈ m → goHasPre k subTopic = false) :
    collectTopics m = some [] := by
  induction m with
  | nil => rfl
  | cons p t ih =>
    have hp : goHasPre p.1 subTopic = false := by
      have hpm : (p.1, p.2) ∈ p :: t := by
        rw [show (p.1, p.2) = p from rfl]
        exact List.mem_cons_self _ _
      exact h p.1 p.2 hpm
    rw [collectTopics, if_neg (by rw [hp]; exact Bool.false_ne_true)]
    exact ih (fun k v hm => h k v (List.mem_cons_of_mem _ hm))

/-! ## The `UnSubscribeAll` loop -/

theorem stores_foldU (hash : String → Nat) (S : Suber) :
    ∀ (ts : List String) (st : EventEmitter Msg Err),
      ((ts.foldl (fun s t => UnSubscribe s hash S t) st).stores S.md) =
        ts.foldl (fun m t => alDel m (subTopic ++ t)) (st.stores S.md) := by
  intro ts
  induction ts with
  | nil => intro st; rfl
  | cons t ts' ih =>
    intro st
    rw [List.foldl_cons, List.foldl_cons, ih, stores_UnSubscribe, if_pos rfl]

theorem alHas_foldDel_mono {k : String} :
    ∀ (ts : List String) (m : Metadata), alHas m k = false →
      alHas (ts.foldl (fun m t => alDel m (subTopic ++ t)) m) k = false := by
  intro ts
  induction ts with
  | nil => intro m h; exact h
  | cons t ts' ih =>
    intro m h
    rw [List.foldl_cons]
    exact ih _ (by rw [alHas_del, h, Bool.and_false])

theorem alHas_foldDel_of_mem {t : String} :
    ∀ (ts : List String), t ∈ ts → ∀ (m : Metadata),
      alHas (ts.foldl (fun m t => alDel m (subTopic ++ t)) m) (subTopic ++ t)
        = false := by
  intro ts
  induction ts with
  | nil => intro h; cases h
  | cons t' ts' ih =>
    intro h m
    rcases List.mem_cons.1 h with he | hmem
    · rw [List.foldl_cons]
      apply alHas_foldDel_mono
      rw [← he, alHas_del]
      simp
    · rw [List.foldl_cons]
      exact ih hmem _

theorem mem_foldDel {k : String} {v : MValue} :
    ∀ (ts : List String) (m : Metadata),
      (k, v) ∈ ts.foldl (fun m t => alDel m (subTopic ++ t)) m → (k, v) ∈ m := by
  intro ts
  induction ts with
  | nil => intro m h; exact h
  | cons t ts' ih =>
    intro m h
    rw [List.foldl_cons] at h
    exact (mem_alDel (ih _ h)).1

theorem unsuball_clears {st : EventEmitter Msg Err} {hash : String → Nat}
    {S : Suber} {ts : List String}
    (hwf : storeWf (st.stores S.md))
    (hc : collectTopics (st.stores S.md) = some ts) :
    ∀ k v,
      (k, v) ∈ ((ts.foldl (fun s t => UnSubscribe s hash S t) st).stores S.md) →
      goHasPre k subTopic = false := by
  intro k v hm
  rw [stores_foldU] at hm
  cases hpre : goHasPre k subTopic with
  | false => rfl
  | true =>
    exfalso
    have hm0 : (k, v) ∈ st.stores S.md := mem_foldDel _ _ hm
    obtain ⟨hk, hv⟩ := storeWf_apply hwf hm0 hpre
    have hts : dropPre k ∈ ts := collect_mem_val hc (hv ▸ hm0) hpre
    have hgone := alHas_foldDel_of_mem ts hts (st.stores S.md)
    have hthere : alHas
        (ts.foldl (fun m t => alDel m (subTopic ++ t)) (st.stores S.md))
        (subTopic ++ dropPre k) = true := by
      rw [← hk]
      exact alHas_iff_mem.2 ⟨v, hm⟩
    rw [hgone] at hthere
    cases hthere

/-! ## Operation sequences and the reverse-index invariant (C2) -/

/-- A public mutating operation of the emitter. -/
inductive Op (Msg Err : Type) where
  | sub (s : Suber) (t : String) (cb : eventCallback Msg Err)
  | unsub (s : Suber) (t : String)
  | unsubAll (s : Suber)

/-- The subscriber an operation acts on. -/
def Op.suber : Op Msg Err → Suber
  | .sub s _ _ => s
  | .unsub s _ => s
  | .unsubAll s => s

/-- Run one operation (`none` = the Go code panics). -/
def runOp (hash : String → Nat) (st : EventEmitter Msg Err) :
    Op Msg Err → Option (EventEmitter Msg Err)
  | .sub s t cb => some (Subscribe st hash s t cb)
  | .unsub s t => some (UnSubscribe st hash s t)
  | .unsubAll s => UnSubscribeAll st hash s

/-- Run a sequence of operations. -/
def runSeq (hash : String → Nat) :
    EventEmitter Msg Err → List (Op Msg Err) → Option (EventEmitter Msg Err)
  | st, [] => some st
  | st, op :: rest =>
    match runOp hash st op with
    | none => none
    | some st' => runSeq hash st' rest

/-- Subscriber objects are coherent when ids and store references identify
each other: distinct subscribers have distinct ids and distinct stores. -/
@[reducible] def coh (l : List Suber) : Prop :=
  ∀ a ∈ l, ∀ b ∈ l, (a.id = b.id ↔ a.md = b.md)

/-- The reverse-index invariant over the subscribers in `SS`: each of their
stores is well-formed, and a reverse-index entry for `T` is present exactly
when the subscriber's id is registered to `T` in the resolved shard. -/
def RevInv (hash : String → Nat) (SS : List Suber)
    (st : EventEmitter Msg Err) : Prop :=
  st.buckets.length = st.bucketNum ∧ 0 < st.bucketNum ∧
  (∀ S ∈ SS, storeWf (st.stores S.md)) ∧
  (∀ S ∈ SS, ∀ T,
    (alHas (st.stores S.md) (subTopic ++ T) = true ↔
      regHas st hash T S.id = true))

theorem regHas_Subscribe_self (st : EventEmitter Msg Err) (hash : String → Nat)
    (S0 : Suber) (T0 : String) (cb : eventCallback Msg Err) (i : String)
    (hlen : st.buckets.length = st.bucketNum) (hpos : 0 < st.bucketNum) :
    regHas (Subscribe st hash S0 T0 cb) hash T0 i =
      (i = S0.id || regHas st hash T0 i) := by
  rw [regHas, regOf_Subscribe_self st hash S0 T0 cb hlen hpos, alHas_set, regHas]

theorem regHas_Subscribe_ne (st : EventEmitter Msg Err) (hash : String → Nat)
    (S0 : Suber) (T0 T : String) (cb : eventCallback Msg Err) (i : String)
    (hT : T ≠ T0) :
    regHas (Subscribe st hash S0 T0 cb) hash T i = regHas st hash T i := by
  rw [regHas, regOf_Subscribe_ne st hash S0 T0 T cb hT, regHas]

theorem regHas_UnSubscribe_self (st : EventEmitter Msg Err) (hash : String → Nat)
    (S0 : Suber) (T0 : String) (i : String)
    (hlen : st.buckets.length = st.bucketNum) (hpos : 0 < st.bucketNum) :
    regHas (UnSubscribe st hash S0 T0) hash T0 i =
      (i ≠ S0.id && regHas st hash T0 i) := by
  rw [regHas, regOf_UnSubscribe_self st hash S0 T0 hlen hpos, alHas_del, regHas]

theorem regHas_UnSubscribe_ne (st : EventEmitter Msg Err) (hash : String → Nat)
    (S0 : Suber) (T0 T : String) (i : String) (hT : T ≠ T0) :
    regHas (UnSubscribe st hash S0 T0) hash T i = regHas st hash T i := by
  rw [regHas, regOf_UnSubscribe_ne st hash S0 T0 T hT, regHas]

theorem RevInv_Subscribe {hash : String → Nat} {SS : List Suber}
    {st : EventEmitter Msg Err} (hinv : RevInv hash SS st) (hcoh : coh SS)
    {S0 : Suber} (hS0 : S0 ∈ SS) (T0 : String) (cb : eventCallback Msg Err) :
    RevInv hash SS (Subscribe st hash S0 T0 cb) := by
  obtain ⟨hlen, hpos, hwf, hiff⟩ := hinv
  refine ⟨by rw [bucketsLen_Subscribe, bucketNum_Subscribe]; exact hlen,
    by rw [bucketNum_Subscribe]; exact hpos, ?_, ?_⟩
  · intro S hS
    rw [stores_Subscribe]
    by_cases hmd : S.md = S0.md
    · rw [if_pos hmd]
      exact storeWf_set T0 (hwf S0 hS0)
    · rw [if_neg hmd]
      exact hwf S hS
  · intro S hS T
    rw [stores_Subscribe]
    by_cases hmd : S.md = S0.md
    · have hid : S.id = S0.id := (hcoh S hS S0 hS0).2 hmd
      rw [if_pos hmd]
      by_cases hT : T = T0
      · subst hT
        rw [regHas_Subscribe_self st hash S0 T cb S.id hlen hpos]
        constructor
        · intro _
          simp [hid]
        · intro _
          rw [alHas_set]
          simp
      · have hkey : subTopic ++ T ≠ subTopic ++ T0 :=
          fun he => hT (subTopic_append_cancel he)
        rw [regHas_Subscribe_ne st hash S0 T0 T cb S.id hT, alHas_set,
          decide_eq_false hkey, Bool.false_or,
          show st.stores S0.md = st.stores S.md from by rw [hmd]]
        exact hiff S hS T
    · have hid : S.id ≠ S0.id := fun he => hmd ((hcoh S hS S0 hS0).1 he)
      rw [if_neg hmd]
      by_cases hT : T = T0
      · subst hT
        rw [regHas_Subscribe_self st hash S0 T cb S.id hlen hpos,
          decide_eq_false hid, Bool.false_or]
        exact hiff S hS T
      · rw [regHas_Subscribe_ne st hash S0 T0 T cb S.id hT]
        exact hiff S hS T

theorem RevInv_UnSubscribe {hash : String → Nat} {SS : List Suber}
    {st : EventEmitter Msg Err} (hinv : RevInv hash SS st) (hcoh : coh SS)
    {S0 : Suber} (hS0 : S0 ∈ SS) (T0 : String) :
    RevInv hash SS (UnSubscribe st hash S0 T0) := by
  obtain ⟨hlen, hpos, hwf, hiff⟩ := hinv
  refine ⟨by rw [bucketsLen_UnSubscribe, bucketNum_UnSubscribe]; exact hlen,
    by rw [bucketNum_UnSubscribe]; exact hpos, ?_, ?_⟩
  · intro S hS
    rw [stores_UnSubscribe]
    by_cases hmd : S.md = S0.md
    · rw [if_pos hmd]
      exact storeWf_del _ (hwf S0 hS0)
    · rw [if_neg hmd]
      exact hwf S hS
  · intro S hS T
    rw [stores_UnSubscribe]
    by_cases hmd : S.md = S0.md
    · have hid : S.id = S0.id := (hcoh S hS S0 hS0).2 hmd
      rw [if_pos hmd]
      by_cases hT : T = T0
      · subst hT
        rw [regHas_UnSubscribe_self st hash S0 T S.id hlen hpos, alHas_del]
        simp [hid]
      · have hkey : subTopic ++ T ≠ subTopic ++ T0 :=
          fun he => hT (subTopic_append_cancel he)
        rw [regHas_UnSubscribe_ne st hash S0 T0 T S.id hT, alHas_del,
          decide_eq_true hkey, Bool.true_and,
          show st.stores S0.md = st.stores S.md from by rw [hmd]]
        exact hiff S hS T
    · have hid : S.id ≠ S0.id := fun he => hmd ((hcoh S hS S0 hS0).1 he)
      rw [if_neg hmd]
      by_cases hT : T = T0
      · subst hT
        rw [regHas_UnSubscribe_self st hash S0 T S.id hlen hpos,
          decide_eq_true hid, Bool.true_and]
        exact hiff S hS T
      · rw [regHas_UnSubscribe_ne st hash S0 T0 T S.id hT]
        exact hiff S hS T

theorem RevInv_foldU {hash : String → Nat} {SS : List Suber} {S0 : Suber}
    (hcoh : coh SS) (hS0 : S0 ∈ SS) :
    ∀ (ts : List String) (st : EventEmitter Msg Err), RevInv hash SS st →
      RevInv hash SS (ts.foldl (fun s t => UnSubscribe s hash S0 t) st) := by
  intro ts
  induction ts with
  | nil => intro st h; exact h
  | cons t ts' ih =>
    intro st h
    rw [List.foldl_cons]
    exact ih _ (RevInv_UnSubscribe h hcoh hS0 t)

theorem RevInv_UnSubscribeAll {hash : String → Nat} {SS : List Suber}
    {st : EventEmitter Msg Err} (hinv : RevInv hash SS st) (hcoh : coh SS)
    {S0 : Suber} (hS0 : S0 ∈ SS) :
    ∃ st', UnSubscribeAll st hash S0 = some st' ∧ RevInv hash SS st' := by
  obtain ⟨ts, hts⟩ := collect_some_of_wf (hinv.2.2.1 S0 hS0)
  refine ⟨ts.foldl (fun s t => UnSubscribe s hash S0 t) st, ?_, ?_⟩
  · rw [UnSubscribeAll, hts]
    rfl
  · exact RevInv_foldU hcoh hS0 ts st hinv

theorem runSeq_RevInv {hash : String → Nat} {SS : List Suber} (hcoh : coh SS) :
    ∀ (ops : List (Op Msg Err)) (st : EventEmitter Msg Err),
      RevInv hash SS st → (∀ op ∈ ops, Op.suber op ∈ SS) →
      ∃ st', runSeq hash st ops = some st' ∧ RevInv hash SS st' := by
  intro ops
  induction ops with
  | nil => intro st h _; exact ⟨st, rfl, h⟩
  | cons op rest ih =>
    intro st h hops
    have hop : Op.suber op ∈ SS := hops op (List.mem_cons_self _ _)
    have hrest : ∀ op' ∈ rest, Op.suber op' ∈ SS :=
      fun op' hm => hops op' (List.mem_cons_of_mem _ hm)
    cases op with
    | sub s t cb =>
      obtain ⟨st', h1, h2⟩ := ih (Subscribe st hash s t cb)
        (RevInv_Subscribe h hcoh hop t cb) hrest
      exact ⟨st', h1, h2⟩
    | unsub s t =>
      obtain ⟨st', h1, h2⟩ := ih (UnSubscribe st hash s t)
        (RevInv_UnSubscribe h hcoh hop t) hrest
      exact ⟨st', h1, h2⟩
    | unsubAll s =>
      obtain ⟨st1, hs1, hinv1⟩ := RevInv_UnSubscribeAll h hcoh hop
      obtain ⟨st', h1, h2⟩ := ih st1 hinv1 hrest
      refine ⟨st', ?_, h2⟩
      rw [runSeq]
      rw [show runOp hash st (Op.unsubAll s) = some st1 from hs1]
      exact h1

theorem getD_replicate {β : Type} :
    ∀ (n i : Nat) (a : β), (List.replicate n a).getD i a = a := by
  intro n
  induction n with
  | zero => intro i a; rfl
  | succ n' ih =>
    intro i a
    cases i with
    | zero => rfl
    | succ j => exact ih j a

theorem regHas_newState (hash : String → Nat) (n : Nat) (T i : String) :
    regHas (newState n : EventEmitter Msg Err) hash T i = false := by
  rw [regHas, regOf]
  have hb : bucketAt (newState n : EventEmitter Msg Err) hash T = ⟨0, []⟩ := by
    unfold bucketAt newState
    exact getD_replicate n _ _
  rw [hb]
  rfl

theorem RevInv_newState (hash : String → Nat) (SS : List Suber) (n : Nat)
    (hn : 0 < n) : RevInv hash SS (newState n : EventEmitter Msg Err) := by
  refine ⟨by simp [newState], hn, ?_, ?_⟩
  · intro S _
    exact storeWf_nil
  · intro S _ T
    rw [regHas_newState]
    show (false = true) ↔ (false = true)
    exact Iff.rfl

/-! ## `toBinaryNumber` arithmetic -/

theorem wrap_eq (z : Int) :
    wrap z = (z + 9223372036854775808) % 18446744073709551616
      - 9223372036854775808 := by
  unfold wrap
  norm_num

theorem wrap_id {z : Int} (h1 : -9223372036854775808 ≤ z)
    (h2 : z < 9223372036854775808) : wrap z = z := by
  rw [wrap_eq]
  omega

/-- The values the doubling loop cycles through when it overflows. -/
def tbnCycle (x : Int) : Prop :=
  x = 0 ∨ x = -9223372036854775808 ∨ ∃ k : Nat, k ≤ 62 ∧ x = 2 ^ k

theorem tbnCycle_step {x : Int} (h : tbnCycle x) :
    x < 2 ^ 62 + 1 ∧ tbnCycle (wrap (x * 2)) := by
  rcases h with h0 | hmin | ⟨k, hk, hpow⟩
  · subst h0
    refine ⟨by norm_num, Or.inl ?_⟩
    rw [wrap_eq]
    norm_num
  · subst hmin
    refine ⟨by norm_num, Or.inl ?_⟩
    rw [wrap_eq]
    norm_num
  · subst hpow
    have hle : (2 : Int) ^ k ≤ 2 ^ 62 := pow_le_pow_right₀ (by norm_num) hk
    refine ⟨by linarith, ?_⟩
    by_cases h62 : k = 62
    · subst h62
      refine Or.inr (Or.inl ?_)
      rw [wrap_eq]
      norm_num
    · have hk61 : k ≤ 61 := by omega
      have hle61 : (2 : Int) ^ k ≤ 2305843009213693952 := by
        calc (2 : Int) ^ k ≤ 2 ^ 61 := pow_le_pow_right₀ (by norm_num) hk61
        _ = 2305843009213693952 := by norm_num
      have hpos : (0 : Int) < 2 ^ k := pow_pos (by norm_num) k
      refine Or.inr (Or.inr ⟨k + 1, by omega, ?_⟩)
      rw [wrap_id (by linarith) (by linarith), pow_succ]

theorem tbn_none_of_cycle :
    ∀ (fuel : Nat) (x : Int), tbnCycle x →
      tbnFuel (2 ^ 62 + 1) fuel x = none := by
  intro fuel
  induction fuel with
  | zero => intro x _; rfl
  | succ f ih =>
    intro x hx
    obtain ⟨hlt, hnext⟩ := tbnCycle_step hx
    rw [tbnFuel, if_pos hlt]
    exact ih _ hnext

theorem tbn_term :
    ∀ (fuel : Nat) (n x : Int), 1 ≤ x → x < 2 ^ 63 → n ≤ 2 ^ 62 →
      n ≤ x * 2 ^ fuel →
      ∃ r, tbnFuel n (fuel + 1) x = some r ∧ (∃ k : Nat, r = x * 2 ^ k) ∧
        n ≤ r ∧ (r = x ∨ r / 2 < n) := by
  intro fuel
  induction fuel with
  | zero =>
    intro n x hx1 _ _ hnx
    rw [pow_zero, mul_one] at hnx
    refine ⟨x, ?_, ⟨0, by rw [pow_zero, mul_one]⟩, hnx, Or.inl rfl⟩
    rw [tbnFuel, if_neg (not_lt.2 hnx)]
  | succ f ih =>
    intro n x hx1 hx63 hn62 hnx
    by_cases hxn : x < n
    · have hx62 : x < 2 ^ 62 := lt_of_lt_of_le hxn hn62
      have hwr : wrap (x * 2) = x * 2 := by
        apply wrap_id
        · omega
        · norm_num at hx62 ⊢
          omega
      have hrec : n ≤ (x * 2) * 2 ^ f := by
        calc n ≤ x * 2 ^ (f + 1) := hnx
        _ = (x * 2) * 2 ^ f := by ring
      obtain ⟨r, h1, ⟨k, hk⟩, h3, h4⟩ := ih n (x * 2) (by linarith)
        (by norm_num at hx62 ⊢; omega) hn62 hrec
      refine ⟨r, ?_, ⟨k + 1, by rw [hk]; ring⟩, h3, ?_⟩
      · rw [tbnFuel, if_pos hxn, hwr]
        exact h1
      · rcases h4 with he | hlt
        · refine Or.inr ?_
          rw [he, mul_comm, Int.mul_ediv_cancel_left x (by norm_num)]
          exact hxn
        · exact Or.inr hlt
    · refine ⟨x, ?_, ⟨0, by rw [pow_zero, mul_one]⟩, not_lt.1 hxn, Or.inl rfl⟩
      rw [tbnFuel, if_neg hxn]

/-! ## Helpers for loop/trace equalities -/

theorem filter_map_eq {β γ : Type} (f : β → γ) (p : γ → Bool) (q : β → Bool) :
    ∀ l : List β, (∀ x ∈ l, p (f x) = q x) →
      (l.map f).filter p = (l.filter q).map f := by
  intro l
  induction l with
  | nil => intro _; rfl
  | cons x rest ih =>
    intro h
    have hx := h x (List.mem_cons_self _ _)
    have hrest := fun y hy => h y (List.mem_cons_of_mem _ hy)
    rw [List.map_cons]
    cases hq : q x with
    | true =>
      rw [List.filter_cons_of_pos (by rw [hx]; exact hq),
        List.filter_cons_of_pos hq, List.map_cons, ih hrest]
    | false =>
      rw [List.filter_cons_of_neg (by rw [hx, hq]; exact Bool.false_ne_true),
        List.filter_cons_of_neg (by rw [hq]; exact Bool.false_ne_true), ih hrest]

theorem pubELoop_spec (msg : Msg) (checkSent : Suber → Bool) :
    ∀ l : List (String × topicElement Msg Err),
      (pubELoop msg checkSent l).checked = l.map (fun p => p.2.suber) ∧
      (pubELoop msg checkSent l).invoked =
        (l.filter (fun p => !checkSent p.2.suber)).map
          (fun p => (p.2.suber, p.2.cb)) ∧
      (pubELoop msg checkSent l).reported =
        (l.filter (fun p => !checkSent p.2.suber)).map
          (fun p => (p.2.suber, p.2.cb p.2.suber msg)) := by
  intro l
  induction l with
  | nil => exact ⟨rfl, rfl, rfl⟩
  | cons p rest ih =>
    obtain ⟨ih1, ih2, ih3⟩ := ih
    cases hc : checkSent p.2.suber with
    | true =>
      refine ⟨?_, ?_, ?_⟩ <;>
        simp [pubELoop, hc, List.filter_cons, ih1, ih2, ih3]
    | false =>
      refine ⟨?_, ?_, ?_⟩ <;>
        simp [pubELoop, hc, List.filter_cons, ih1, ih2, ih3]

theorem publishE_eq_regOf (st : EventEmitter Msg Err) (hash : String → Nat)
    (T : String) (msg : Msg) (checkSent : Suber → Bool) :
    PublishE st hash T msg checkSent = pubELoop msg checkSent (regOf st hash T) := by
  unfold PublishE bucket.publish_e regOf
  cases alGet (bucketAt st hash T).Topics T with
  | none => rfl
  | some t => rfl

/-! ## Concrete fixtures for witnesses and counterexamples -/

/-- A concrete hash (any function is admissible, the seed is arbitrary). -/
def hash0 : String → Nat := fun _ => 0

/-- A concrete callback over `Msg = Err = Nat`. -/
def cbN : eventCallback Nat Nat := fun _ _ => none

/-- A concrete subscriber with store reference 0. -/
def sA : Suber := ⟨"a", 0⟩

/-- A concrete subscriber with store reference 1. -/
def sB : Suber := ⟨"b", 1⟩

/-- A subscriber object distinct from `sA` but with the same id. -/
def sA2 : Suber := ⟨"a", 2⟩

/-- A metadata store holding a non-string value under a reserved key,
as a caller could create by writing to the store directly. -/
def badState : EventEmitter Nat Nat :=
  ⟨1, [⟨0, []⟩], fun _ => [("sub-topic-x", MValue.other 0)]⟩

/-! ## Claim theorems -/

/-- Claim C1: for every topic `T` and message `msg`, `publish(T, msg)`
invokes exactly the callbacks of the subscribers registered to `T` at the
time of the call — the trace is the registration list itself (one
invocation per registered subscriber-id, each with that subscriber and
`msg`), the invoked ids are distinct, and an id is invoked iff it is
registered to `T`. -/
theorem publish_invokes_exactly_registered (st : EventEmitter Msg Err)
    (hash : String → Nat) (T : String) (msg : Msg) (hwf : StWf st) :
    Publish st hash T msg =
      (regOf st hash T).map (fun p => (p.2.suber, p.2.cb, msg)) ∧
    ((Publish st hash T msg).map (fun e => e.1.id)).Nodup ∧
    (∀ i, (∃ e ∈ Publish st hash T msg, e.1.id = i) ↔
      regHas st hash T i = true) := by
  obtain ⟨hnd, hkeyed⟩ := regOf_bucketWf hash T hwf
  refine ⟨publish_eq_regOf_map st hash T msg, ?_, ?_⟩
  · rw [publish_eq_regOf_map, List.map_map]
    rw [show ((fun (e : Suber × eventCallback Msg Err × Msg) => e.1.id) ∘
        (fun p => (p.2.suber, p.2.cb, msg))) =
        (fun (p : String × topicElement Msg Err) => p.2.suber.id) from rfl]
    rw [List.map_congr_left (fun q hq => hkeyed q hq)]
    exact hnd
  · intro i
    constructor
    · rintro ⟨e, he, hid⟩
      rw [publish_eq_regOf_map] at he
      obtain ⟨q, hq, hqe⟩ := List.mem_map.1 he
      have : q.2.suber.id = i := by rw [← hid, ← hqe]
      rw [hkeyed q hq] at this
      exact alHas_iff_mem.2 ⟨q.2, mem_pair_of hq this⟩
    · intro hreg
      obtain ⟨v, hv⟩ := alHas_iff_mem.1 hreg
      refine ⟨(v.suber, v.cb, msg), ?_, ?_⟩
      · rw [publish_eq_regOf_map]
        exact List.mem_map.2 ⟨(i, v), hv, rfl⟩
      · exact hkeyed (i, v) hv
    
/-- Witness for C1 at a concrete state: two subscribers on topic `t`. -/
theorem publish_invokes_exactly_registered_witness :
    StWf (Subscribe (Subscribe (newState 1) hash0 sA "t" cbN) hash0 sB "t" cbN) ∧
    (Publish (Subscribe (Subscribe (newState 1) hash0 sA "t" cbN) hash0 sB "t" cbN)
        hash0 "t" 7 =
      (regOf (Subscribe (Subscribe (newState 1) hash0 sA "t" cbN) hash0 sB "t" cbN)
          hash0 "t").map (fun p => (p.2.suber, p.2.cb, 7)) ∧
    ((Publish (Subscribe (Subscribe (newState 1) hash0 sA "t" cbN) hash0 sB "t" cbN)
        hash0 "t" 7).map (fun e => e.1.id)).Nodup ∧
    (∀ i, (∃ e ∈ Publish (Subscribe (Subscribe (newState 1) hash0 sA "t" cbN)
          hash0 sB "t" cbN) hash0 "t" 7, e.1.id = i) ↔
      regHas (Subscribe (Subscribe (newState 1) hash0 sA "t" cbN) hash0 sB "t" cbN)
        hash0 "t" i = true)) :=
  ⟨by decide, publish_invokes_exactly_registered _ hash0 "t" 7 (by decide)⟩

/-- Claim C4: `publishWithErrors(T, msg, shouldSkip, onResult)` evaluates
`shouldSkip` on every registered subscriber; whenever it returns false the
callback is invoked and `(subscriber, error)` is passed to `onResult`
regardless of whether the error is `nil`, iteration continuing over all
remaining subscribers; when it returns true, neither the callback nor
`onResult` fires for that subscriber. -/
theorem publishE_skips_and_reports (st : EventEmitter Msg Err)
    (hash : String → Nat) (T : String) (msg : Msg) (checkSent : Suber → Bool) :
    (PublishE st hash T msg checkSent).checked =
      (regOf st hash T).map (fun p => p.2.suber) ∧
    (PublishE st hash T msg checkSent).invoked =
      ((regOf st hash T).filter (fun p => !checkSent p.2.suber)).map
        (fun p => (p.2.suber, p.2.cb)) ∧
    (PublishE st hash T msg checkSent).reported =
      ((regOf st hash T).filter (fun p => !checkSent p.2.suber)).map
        (fun p => (p.2.suber, p.2.cb p.2.suber msg)) := by
  rw [publishE_eq_regOf]
  exact pubELoop_spec msg checkSent (regOf st hash T)

/-- Claim C5: re-subscribing the same `(S, T)` pair replaces the callback:
after `subscribe(S,T,cb1); subscribe(S,T,cb2)` exactly one registration for
`S` remains under `T`, it carries `cb2`, and `countSubscribersByTopic(T)`
equals its value after the first subscribe. -/
theorem resubscribe_overwrites (st : EventEmitter Msg Err)
    (hash : String → Nat) (S : Suber) (T : String)
    (cb1 cb2 : eventCallback Msg Err) (hwf : StWf st) :
    alGet (regOf (Subscribe (Subscribe st hash S T cb1) hash S T cb2) hash T)
        S.id = some ⟨S, cb2⟩ ∧
    (regOf (Subscribe (Subscribe st hash S T cb1) hash S T cb2) hash T).countP
        (fun p => p.1 = S.id) = 1 ∧
    CountSubscriberByTopic (Subscribe (Subscribe st hash S T cb1) hash S T cb2)
        hash T =
      CountSubscriberByTopic (Subscribe st hash S T cb1) hash T := by
  have hlen := hwf.1
  have hpos := hwf.2.1
  have hwf1 : StWf (Subscribe st hash S T cb1) := StWf_Subscribe hash S T cb1 hwf
  have hlen1 := hwf1.1
  have hpos1 := hwf1.2.1
  have hwf2 : StWf (Subscribe (Subscribe st hash S T cb1) hash S T cb2) :=
    StWf_Subscribe hash S T cb2 hwf1
  have hr1 : regOf (Subscribe st hash S T cb1) hash T =
      alSet (regOf st hash T) S.id ⟨S, cb1⟩ :=
    regOf_Subscribe_self st hash S T cb1 hlen hpos
  have hr2 : regOf (Subscribe (Subscribe st hash S T cb1) hash S T cb2) hash T =
      alSet (regOf (Subscribe st hash S T cb1) hash T) S.id ⟨S, cb2⟩ :=
    regOf_Subscribe_self _ hash S T cb2 hlen1 hpos1
  have hhas1 : alHas (regOf (Subscribe st hash S T cb1) hash T) S.id = true := by
    rw [hr1, alHas_set]
    simp
  refine ⟨?_, ?_, ?_⟩
  · rw [hr2]
    exact alGet_set_self _ _ _
  · have hnd2 := (regOf_bucketWf hash T hwf2).1
    have hhas2 : alHas (regOf (Subscribe (Subscribe st hash S T cb1) hash S T cb2)
        hash T) S.id = true := by
      rw [hr2, alHas_set]
      simp
    exact countP_key_eq_one hnd2 hhas2
  · rw [count_eq_regOf_length, count_eq_regOf_length, hr2]
    exact length_alSet_of_has _ hhas1

/-- Witness for C5 at a concrete state. -/
theorem resubscribe_overwrites_witness :
    StWf (newState 1 : EventEmitter Nat Nat) ∧
    (alGet (regOf (Subscribe (Subscribe (newState 1) hash0 sA "t" cbN)
        hash0 sA "t" cbN) hash0 "t") sA.id = some ⟨sA, cbN⟩ ∧
    (regOf (Subscribe (Subscribe (newState 1) hash0 sA "t" cbN) hash0 sA "t" cbN)
        hash0 "t").countP (fun p => p.1 = sA.id) = 1 ∧
    CountSubscriberByTopic (Subscribe (Subscribe (newState 1) hash0 sA "t" cbN)
        hash0 sA "t" cbN) hash0 "t" =
      CountSubscriberByTopic (Subscribe (newState 1) hash0 sA "t" cbN)
        hash0 "t") :=
  ⟨by decide, resubscribe_overwrites (newState 1) hash0 sA "t" cbN cbN (by decide)⟩

/-- Counterexample to C8 as stated: subscribing to the empty-string topic
is possible, and publishing to it then produces one invocation, not zero. -/
theorem publish_empty_topic_cex :
    (Publish (Subscribe (newState 1 : EventEmitter Nat Nat) hash0 sA "" cbN)
      hash0 "" 0).length = 1 := by
  decide

/-- Claim C8 (amended): publishing to any topic with no registration —
the empty string included when it was never subscribed to — produces zero
callback invocations and returns normally, for every message value. -/
theorem publish_unregistered_empty (st : EventEmitter Msg Err)
    (hash : String → Nat) (T : String) (msg : Msg)
    (h : regOf st hash T = []) : Publish st hash T msg = [] := by
  rw [publish_eq_regOf_map, h]
  rfl

/-- Witness for C8 (amended): publishing the empty-string topic on a fresh
emitter yields no invocations. -/
theorem publish_unregistered_empty_witness :
    regOf (newState 1 : EventEmitter Nat Nat) hash0 "" = [] ∧
    Publish (newState 1 : EventEmitter Nat Nat) hash0 "" 3 = [] :=
  ⟨rfl, publish_unregistered_empty (newState 1) hash0 "" 3 rfl⟩

/-- Claim C3: `unsubscribeAll(S)` leaves `topicsBySubscriber(S)` empty and
is idempotent — a second consecutive call returns the same state — and on
a subscriber with no subscriptions it is a no-op. -/
theorem unsubscribeAll_empties_and_idempotent (st : EventEmitter Msg Err)
    (hash : String → Nat) (S : Suber) (hwf : storeWf (st.stores S.md)) :
    ∃ st', UnSubscribeAll st hash S = some st' ∧
      GetTopicsBySubscriber st' S = some [] ∧
      UnSubscribeAll st' hash S = some st' ∧
      (∀ st₀ : EventEmitter Msg Err, GetTopicsBySubscriber st₀ S = some [] →
        UnSubscribeAll st₀ hash S = some st₀) := by
  obtain ⟨ts, hts⟩ := collect_some_of_wf hwf
  refine ⟨ts.foldl (fun s t => UnSubscribe s hash S t) st, ?_, ?_, ?_, ?_⟩
  · rw [UnSubscribeAll, hts]
    rfl
  · show collectTopics _ = some []
    apply collect_nil_of_noPre
    intro k v hm
    exact unsuball_clears hwf hts k v hm
  · rw [UnSubscribeAll]
    rw [show collectTopics
        ((ts.foldl (fun s t => UnSubscribe s hash S t) st).stores S.md) =
        some [] from collect_nil_of_noPre
          (fun k v hm => unsuball_clears hwf hts k v hm)]
    rfl
  · intro st₀ h0
    rw [UnSubscribeAll, show collectTopics (st₀.stores S.md) = some [] from h0]
    rfl

/-- Witness for C3 at a concrete state with one subscription. -/
theorem unsubscribeAll_empties_and_idempotent_witness :
    storeWf ((Subscribe (newState 1 : EventEmitter Nat Nat) hash0 sA "t" cbN).stores
      sA.md) ∧
    (∃ st', UnSubscribeAll (Subscribe (newState 1) hash0 sA "t" cbN) hash0 sA =
        some st' ∧
      GetTopicsBySubscriber st' sA = some [] ∧
      UnSubscribeAll st' hash0 sA = some st' ∧
      (∀ st₀ : EventEmitter Nat Nat, GetTopicsBySubscriber st₀ sA = some [] →
        UnSubscribeAll st₀ hash0 sA = some st₀)) :=
  ⟨by decide, unsubscribeAll_empties_and_idempotent
    (Subscribe (newState 1) hash0 sA "t" cbN) hash0 sA (by decide)⟩

/-- Claim C6: for a subscriber `S` currently subscribed to `T`,
`unsubscribe(S, T)` removes `T` from `topicsBySubscriber(S)` and decreases
`countSubscribersByTopic(T)` by exactly one; a second `unsubscribe(S, T)`,
or one on a state where `(S, T)` is not registered, changes no state. -/
theorem unsubscribe_removes_and_noop (st : EventEmitter Msg Err)
    (hash : String → Nat) (S : Suber) (T : String) (hwf : StWf st)
    (hsw : storeWf (st.stores S.md)) (hreg : regHas st hash T S.id = true) :
    (∀ l, GetTopicsBySubscriber (UnSubscribe st hash S T) S = some l → T ∉ l) ∧
    CountSubscriberByTopic (UnSubscribe st hash S T) hash T + 1 =
      CountSubscriberByTopic st hash T ∧
    UnSubscribe (UnSubscribe st hash S T) hash S T = UnSubscribe st hash S T ∧
    (∀ st₀ : EventEmitter Msg Err, StWf st₀ →
      alHas (st₀.stores S.md) (subTopic ++ T) = false →
      regHas st₀ hash T S.id = false → UnSubscribe st₀ hash S T = st₀) := by
  have hlen := hwf.1
  have hpos := hwf.2.1
  refine ⟨?_, ?_, ?_, fun st₀ h1 h2 h3 => unsub_noop h1 h2 h3⟩
  · intro l hc hTl
    rw [GetTopicsBySubscriber, stores_UnSubscribe, if_pos rfl] at hc
    obtain ⟨k, hk1, hk2⟩ := collect_src hc hTl
    have hwf' : storeWf (alDel (st.stores S.md) (subTopic ++ T)) :=
      storeWf_del _ hsw
    obtain ⟨hkey, hval⟩ := storeWf_apply hwf' hk1 hk2
    have hdp : dropPre k = T := by
      have := hval.symm
      rw [MValue.str.injEq] at this
      exact this
    rw [hdp] at hkey
    exact (mem_alDel hk1).2 hkey
  · rw [count_eq_regOf_length, count_eq_regOf_length,
      regOf_UnSubscribe_self st hash S T hlen hpos]
    exact length_alDel_of_has (regOf_bucketWf hash T hwf).1 hreg
  · apply unsub_noop (StWf_UnSubscribe hash S T hwf)
    · rw [stores_UnSubscribe, if_pos rfl, alHas_del]
      simp
    · rw [regHas_UnSubscribe_self st hash S T S.id hlen hpos]
      simp

/-- Witness for C6 at a concrete state with two subscribers on topic `t`. -/
theorem unsubscribe_removes_and_noop_witness :
    StWf (Subscribe (Subscribe (newState 1) hash0 sA "t" cbN) hash0 sB "t" cbN) ∧
    storeWf ((Subscribe (Subscribe (newState 1 : EventEmitter Nat Nat) hash0 sA "t"
      cbN) hash0 sB "t" cbN).stores sA.md) ∧
    regHas (Subscribe (Subscribe (newState 1) hash0 sA "t" cbN) hash0 sB "t" cbN)
      hash0 "t" sA.id = true ∧
    ((∀ l, GetTopicsBySubscriber (UnSubscribe (Subscribe (Subscribe (newState 1)
        hash0 sA "t" cbN) hash0 sB "t" cbN) hash0 sA "t") sA = some l → "t" ∉ l) ∧
    CountSubscriberByTopic (UnSubscribe (Subscribe (Subscribe (newState 1)
        hash0 sA "t" cbN) hash0 sB "t" cbN) hash0 sA "t") hash0 "t" + 1 =
      CountSubscriberByTopic (Subscribe (Subscribe (newState 1) hash0 sA "t" cbN)
        hash0 sB "t" cbN) hash0 "t" ∧
    UnSubscribe (UnSubscribe (Subscribe (Subscribe (newState 1) hash0 sA "t" cbN)
        hash0 sB "t" cbN) hash0 sA "t") hash0 sA "t" =
      UnSubscribe (Subscribe (Subscribe (newState 1) hash0 sA "t" cbN) hash0 sB
        "t" cbN) hash0 sA "t" ∧
    (∀ st₀ : EventEmitter Nat Nat, StWf st₀ →
      alHas (st₀.stores sA.md) (subTopic ++ "t") = false →
      regHas st₀ hash0 "t" sA.id = false → UnSubscribe st₀ hash0 sA "t" = st₀)) :=
  ⟨by decide, by decide, by decide,
    unsubscribe_removes_and_noop (Subscribe (Subscribe (newState 1) hash0 sA "t"
      cbN) hash0 sB "t" cbN) hash0 sA "t" (by decide) (by decide) (by decide)⟩

/-- Claim C2: after any sequence of Subscribe / UnSubscribe /
UnSubscribeAll operations from a fresh emitter (subscriber objects being
coherent: equal ids exactly when equal stores), no operation panics, and
a subscriber's store holds the reverse-index entry for `T` iff its id is
registered to `T` in the resolved shard — each operation preserves the
invariant, as the `RevInv` preservation lemmas establish step by step. -/
theorem reverse_index_in_sync (hash : String → Nat) (n : Nat) (hn : 0 < n)
    (ops : List (Op Msg Err)) (hcoh : coh (ops.map Op.suber)) :
    ∃ st', runSeq hash (newState n) ops = some st' ∧
      ∀ S ∈ ops.map Op.suber, ∀ T,
        (alHas (st'.stores S.md) (subTopic ++ T) = true ↔
          regHas st' hash T S.id = true) := by
  obtain ⟨st', h1, h2⟩ := runSeq_RevInv hcoh ops (newState n)
    (RevInv_newState hash (ops.map Op.suber) n hn)
    (fun op hm => List.mem_map_of_mem Op.suber hm)
  exact ⟨st', h1, h2.2.2.2⟩

/-- Witness for C2 on a concrete operation sequence. -/
theorem reverse_index_in_sync_witness :
    0 < 1 ∧ coh (([Op.sub sA "t" cbN, Op.unsub sA "t",
      Op.unsubAll sA] : List (Op Nat Nat)).map Op.suber) ∧
    (∃ st', runSeq hash0 (newState 1)
        [Op.sub sA "t" cbN, Op.unsub sA "t", Op.unsubAll sA] = some st' ∧
      ∀ S ∈ ([Op.sub sA "t" cbN, Op.unsub sA "t",
          Op.unsubAll sA] : List (Op Nat Nat)).map Op.suber, ∀ T,
        (alHas (st'.stores S.md) (subTopic ++ T) = true ↔
          regHas st' hash0 T S.id = true)) :=
  ⟨by decide, by decide,
    reverse_index_in_sync hash0 1 (by decide) _ (by decide)⟩

/-- Counterexample to C7 as stated: with `BucketNum = 2^62 + 1` (a valid
int64), the doubling loop of `toBinaryNumber` overflows and cycles through
`-2^63` and `0` forever, so `New` does not terminate — no amount of fuel
makes it return. -/
theorem new_overflow_diverges :
    ¬ ∃ (fuel : Nat) (st : EventEmitter Nat Nat),
      NewFuel (2 ^ 62 + 1) fuel = some st := by
  rintro ⟨fuel, st, h⟩
  rw [NewFuel, if_neg (by norm_num)] at h
  rw [tbn_none_of_cycle fuel 1 (Or.inr (Or.inr ⟨0, by omega, by norm_num⟩))] at h
  simp at h

/-- Claim C7 (amended): for every configured `BucketNum ≤ 2^62`, `New`
terminates and the shard count is a power of two — 16 when the configured
count is non-positive, and otherwise the smallest power of two not below
it; for larger int64 values the rounding loop does not terminate. -/
theorem new_rounds_to_power (n : Int) (hn : n ≤ 2 ^ 62) :
    ∃ (fuel : Nat) (st : EventEmitter Msg Err), NewFuel n fuel = some st ∧
      (∃ k : Nat, (st.bucketNum : Int) = 2 ^ k) ∧
      (if n ≤ 0 then (16 : Int) else n) ≤ (st.bucketNum : Int) ∧
      ((st.bucketNum : Int) = 1 ∨
        (st.bucketNum : Int) / 2 < (if n ≤ 0 then (16 : Int) else n)) ∧
      st.buckets.length = st.bucketNum := by
  have hle : (if n ≤ 0 then (16 : Int) else n) ≤ 2 ^ 62 := by
    by_cases h0 : n ≤ 0
    · rw [if_pos h0]
      norm_num
    · rw [if_neg h0]
      exact hn
  obtain ⟨r, hr, ⟨k, hk⟩, hnr, hmin⟩ := tbn_term 62 (if n ≤ 0 then 16 else n) 1
    le_rfl (by norm_num) hle (by rw [one_mul]; exact hle)
  rw [one_mul] at hk
  have hrpos : 0 < r := by
    rw [hk]
    exact pow_pos (by norm_num) k
  have hcast : ((r.toNat : Int)) = r := Int.toNat_of_nonneg (le_of_lt hrpos)
  refine ⟨62 + 1, newState r.toNat, ?_, ⟨k, ?_⟩, ?_, ?_, ?_⟩
  · rw [NewFuel, hr]
    rfl
  · show ((r.toNat : Int)) = 2 ^ k
    rw [hcast, hk]
  · show _ ≤ ((r.toNat : Int))
    rw [hcast]
    exact hnr
  · rcases hmin with he | hlt
    · refine Or.inl ?_
      show ((r.toNat : Int)) = 1
      rw [hcast, he]
    · refine Or.inr ?_
      show ((r.toNat : Int)) / 2 < _
      rw [hcast]
      exact hlt
  · show (List.replicate r.toNat _).length = r.toNat
    simp

/-- Witness for C7 (amended) at `BucketNum = 5` (rounds to 8). -/
theorem new_rounds_to_power_witness :
    (5 : Int) ≤ 2 ^ 62 ∧
    (∃ (fuel : Nat) (st : EventEmitter Nat Nat), NewFuel 5 fuel = some st ∧
      (∃ k : Nat, (st.bucketNum : Int) = 2 ^ k) ∧
      (if (5 : Int) ≤ 0 then (16 : Int) else 5) ≤ (st.bucketNum : Int) ∧
      ((st.bucketNum : Int) = 1 ∨
        (st.bucketNum : Int) / 2 < (if (5 : Int) ≤ 0 then (16 : Int) else 5)) ∧
      st.buckets.length = st.bucketNum) :=
  ⟨by norm_num, new_rounds_to_power 5 (by norm_num)⟩

/-- Claim C9: registrations are keyed solely by the subscriber id: for two
distinct subscriber objects with equal ids, subscribing the first then the
second to `T` leaves one counted entry for that id, carrying the second
subscriber and its callback, and a publish invokes only the second's
callback for that id. -/
theorem same_id_overwrites (st : EventEmitter Msg Err) (hash : String → Nat)
    (S1 S2 : Suber) (T : String) (cb1 cb2 : eventCallback Msg Err) (msg : Msg)
    (hwf : StWf st) (hid : S1.id = S2.id) :
    (regOf (Subscribe (Subscribe st hash S1 T cb1) hash S2 T cb2) hash T).countP
        (fun p => p.1 = S1.id) = 1 ∧
    alGet (regOf (Subscribe (Subscribe st hash S1 T cb1) hash S2 T cb2) hash T)
        S1.id = some ⟨S2, cb2⟩ ∧
    (Publish (Subscribe (Subscribe st hash S1 T cb1) hash S2 T cb2) hash T
        msg).filter (fun e => e.1.id = S1.id) = [(S2, cb2, msg)] := by
  rw [hid]
  have hwf1 : StWf (Subscribe st hash S1 T cb1) := StWf_Subscribe hash S1 T cb1 hwf
  have hwf2 : StWf (Subscribe (Subscribe st hash S1 T cb1) hash S2 T cb2) :=
    StWf_Subscribe hash S2 T cb2 hwf1
  have hr2 : regOf (Subscribe (Subscribe st hash S1 T cb1) hash S2 T cb2) hash T =
      alSet (regOf (Subscribe st hash S1 T cb1) hash T) S2.id ⟨S2, cb2⟩ :=
    regOf_Subscribe_self _ hash S2 T cb2 hwf1.1 hwf1.2.1
  have hget : alGet (regOf (Subscribe (Subscribe st hash S1 T cb1) hash S2 T cb2)
      hash T) S2.id = some ⟨S2, cb2⟩ := by
    rw [hr2]
    exact alGet_set_self _ _ _
  have hnd2 := (regOf_bucketWf hash T hwf2).1
  have hkeyed2 := (regOf_bucketWf hash T hwf2).2
  refine ⟨?_, hget, ?_⟩
  · exact countP_key_eq_one hnd2 (alHas_of_alGet hget)
  · have hfm : ((regOf (Subscribe (Subscribe st hash S1 T cb1) hash S2 T cb2)
        hash T).map (fun p => (p.2.suber, p.2.cb, msg))).filter
          (fun e => e.1.id = S2.id) =
        ((regOf (Subscribe (Subscribe st hash S1 T cb1) hash S2 T cb2)
          hash T).filter (fun p => p.1 = S2.id)).map
            (fun p => (p.2.suber, p.2.cb, msg)) := by
      apply filter_map_eq
      intro x hx
      show decide (x.2.suber.id = S2.id) = decide (x.1 = S2.id)
      rw [hkeyed2 x hx]
    rw [publish_eq_regOf_map, hfm, filter_key_eq_of_nodup hnd2 hget]
    rfl

/-- Witness for C9: two subscriber objects with id `"a"` but different
metadata stores. -/
theorem same_id_overwrites_witness :
    StWf (newState 1 : EventEmitter Nat Nat) ∧ sA.id = sA2.id ∧
    ((regOf (Subscribe (Subscribe (newState 1) hash0 sA "t" cbN) hash0 sA2 "t"
        cbN) hash0 "t").countP (fun p => p.1 = sA.id) = 1 ∧
    alGet (regOf (Subscribe (Subscribe (newState 1) hash0 sA "t" cbN) hash0 sA2
        "t" cbN) hash0 "t") sA.id = some ⟨sA2, cbN⟩ ∧
    (Publish (Subscribe (Subscribe (newState 1) hash0 sA "t" cbN) hash0 sA2 "t"
        cbN) hash0 "t" 9).filter (fun e => e.1.id = sA.id) = [(sA2, cbN, 9)]) :=
  ⟨by decide, by decide,
    same_id_overwrites (newState 1) hash0 sA sA2 "t" cbN cbN 9 (by decide)
      (by decide)⟩

/-- Claim C10: under the precondition that every reserved-marker entry was
written by `Subscribe` (key `subTopic ++ t` holding the string `t`), the
unchecked `value.(string)` cast cannot panic and `GetTopicsBySubscriber`
returns exactly the stored topic values; a caller-stored non-string value
under such a key makes the cast panic (`none`). -/
theorem topics_cast_safe (st : EventEmitter Msg Err) (S : Suber)
    (hwf : storeWf (st.stores S.md)) :
    (∃ l, GetTopicsBySubscriber st S = some l ∧
      ∀ t, t ∈ l ↔ (subTopic ++ t, MValue.str t) ∈ st.stores S.md) ∧
    GetTopicsBySubscriber badState sA = none := by
  constructor
  · obtain ⟨ts, hts⟩ := collect_some_of_wf hwf
    refine ⟨ts, hts, ?_⟩
    intro t
    constructor
    · intro ht
      obtain ⟨k, hk1, hk2⟩ := collect_src hts ht
      obtain ⟨hkey, hval⟩ := storeWf_apply hwf hk1 hk2
      have hdp : dropPre k = t := by
        have h2 := hval.symm
        rw [MValue.str.injEq] at h2
        exact h2
      rw [hdp] at hkey
      rw [← hkey]
      exact hk1
    · intro hm
      exact collect_mem_val hts hm (hasPre_append t)
  · decide

/-- Witness for C10 at a concrete state with one `Subscribe`-written entry. -/
theorem topics_cast_safe_witness :
    storeWf ((Subscribe (newState 1 : EventEmitter Nat Nat) hash0 sA "t"
      cbN).stores sA.md) ∧
    ((∃ l, GetTopicsBySubscriber (Subscribe (newState 1) hash0 sA "t" cbN) sA =
        some l ∧
      ∀ t, t ∈ l ↔ (subTopic ++ t, MValue.str t) ∈
        (Subscribe (newState 1 : EventEmitter Nat Nat) hash0 sA "t" cbN).stores
          sA.md) ∧
    GetTopicsBySubscriber badState sA = none) :=
  ⟨by decide, topics_cast_safe (Subscribe (newState 1) hash0 sA "t" cbN) sA
    (by decide)⟩

end EventEmitterSpec
